import Mathlib

set_option autoImplicit false

/-!
Shallow embedding of the mt-trie Merkle Patricia Trie core (package `trie`),
translated from the Go sources. Byte strings and nibble strings are modelled
as `List Nat` with explicit range side conditions where they matter.

Parts of the repository that are referenced by the code under `src/` but whose
definitions are not shipped there (the nibble codec, the RLP primitives, the
`cachedNode` helpers, `Trie.Delete`, `Trie.Commit`) are modelled from the
specification; each such definition carries a doc comment starting with
`Modelled from the spec:`.
-/

namespace MtTrie

abbrev Bytes := List Nat
abbrev Nibs := List Nat
abbrev Hash := List Nat

/-- The all-zero 32-byte hash (`common.Hash{}`). -/
def zeroHash : Hash := List.replicate 32 0

/-- `emptyRoot`, the known root hash of an empty trie
(src/trie/trie.go line 12): 0x56e8...b421. -/
def emptyRootBytes : Hash :=
  [0x56, 0xe8, 0x1f, 0x17, 0x1b, 0xcc, 0x55, 0xa6, 0xff, 0x83, 0x45, 0xe6,
   0x92, 0xc0, 0xf8, 0x6e, 0x5b, 0x48, 0xe0, 0x1b, 0x99, 0x6c, 0xad, 0xc0,
   0x01, 0x62, 0x2f, 0xb5, 0xe3, 0x63, 0xb4, 0x21]

/-- Modelled from the spec (§4.B; the nibble codec file is not under `src/`):
`keybytesToHex` expands a byte string into hex nibbles, most significant
nibble first, followed by the terminator nibble `16`. -/
def keybytesToHex (b : Bytes) : Nibs :=
  (b.flatMap fun x => [x / 16, x % 16]) ++ [16]

/-- Modelled from the spec (§4.B): the length of the longest common prefix of
two nibble strings. -/
def prefixLen : Nibs → Nibs → Nat
  | a :: as, b :: bs => if a = b then prefixLen as bs + 1 else 0
  | _, _ => 0

/-- `hasTerm` returns whether a hex key has the terminator flag
(src/trie/trie_committer.go, decoder half, lines 303-305). -/
def hasTerm (s : Nibs) : Bool := s.getLast? = some 16

/-- Modelled from the spec (§4.B): pack nibbles two per byte, MSB first. -/
def packNibs : Nibs → Bytes
  | a :: b :: rest => (a * 16 + b) :: packNibs rest
  | _ => []

/-- Modelled from the spec (§4.B; `hexToCompact` is not under `src/`): the
first byte's high nibble is a two-bit header (bit 1 = terminator present,
bit 0 = odd length); on odd length the first key nibble occupies the low
nibble of the header byte; remaining nibbles are packed two per byte. -/
def hexToCompact (hex : Nibs) : Bytes :=
  let t : Nat := if hasTerm hex then 1 else 0
  let h := if hasTerm hex then hex.dropLast else hex
  if h.length % 2 = 1 then
    ((2 * t + 1) * 16 + h.headD 0) :: packNibs h.tail
  else
    ((2 * t) * 16) :: packNibs h

/-- Modelled from the spec (§4.B): unpack a byte string into nibbles. -/
def bytesToNibs : Bytes → Nibs
  | x :: rest => x / 16 :: x % 16 :: bytesToNibs rest
  | [] => []

/-- Modelled from the spec (§4.B; inverse of `hexToCompact`): read the
header, restore parity, append the terminator nibble iff the terminator
bit was set. -/
def compactToHex (compact : Bytes) : Nibs :=
  match compact with
  | [] => []
  | b :: rest =>
    let flags := b / 16
    let body := if flags % 2 = 1 then b % 16 :: bytesToNibs rest else bytesToNibs rest
    if flags / 2 = 1 then body ++ [16] else body

/-- `nodeFlag` (node model, cache flag): optional cached hash plus dirty bit. -/
structure NodeFlag where
  hash  : Option Hash
  dirty : Bool
  deriving Repr, DecidableEq

/-- `newFlag` returns the cache flag value for a newly created node
(src/trie/trie.go lines 39-41). -/
def newFlag : NodeFlag := ⟨none, true⟩

/-- The four node variants (node model file). Go's untyped `nil` node is
modelled as `none` at `Option Node` positions. A branch node's 17 child
slots are a list (well-formed nodes keep its length at 17). -/
inductive Node where
  | full  (children : List (Option Node)) (flags : NodeFlag)
  | short (key : Nibs) (val : Node) (flags : NodeFlag)
  | hash  (h : Hash)
  | value (v : Bytes)
  deriving Repr

/-- `node.cache()`: cached hash and dirty bit per variant. -/
def Node.cache : Node → Option Hash × Bool
  | .full _ f => (f.hash, f.dirty)
  | .short _ _ f => (f.hash, f.dirty)
  | .hash _ => (none, true)
  | .value _ => (none, true)

/-- The change tracker `trieCapture` (src/trie/trie_capture.go and its
extended variant with the `origin` map). The Go maps are modelled as lists
without duplicates for `ins`/`del` and an association list for `origin`. -/
structure TrieCapture where
  ins    : List Nibs
  del    : List Nibs
  origin : List (Nibs × Bytes)
  deriving Repr

/-- Set-style insertion used to model Go map-key insertion. -/
def listInsert (l : List Nibs) (p : Nibs) : List Nibs :=
  if p ∈ l then l else l ++ [p]

/-- `newTracer` (src/trie/trie_capture.go lines 9-15). -/
def newTracer : TrieCapture := ⟨[], [], []⟩

/-- `onInsert` (src/trie/trie_capture.go): a path already in the deletion set
is wiped from it (resurrected node); otherwise it joins the insertion set. -/
def TrieCapture.onInsert (t : TrieCapture) (path : Nibs) : TrieCapture :=
  if path ∈ t.del then { t with del := t.del.erase path }
  else { t with ins := listInsert t.ins path }

/-- `onDelete` (src/trie/trie_capture.go): symmetric to `onInsert`. -/
def TrieCapture.onDelete (t : TrieCapture) (path : Nibs) : TrieCapture :=
  if path ∈ t.ins then { t with ins := t.ins.erase path }
  else { t with del := listInsert t.del path }

/-- `onRead` (extended capture file): cache the original blob of a node
loaded from the store. -/
def TrieCapture.onRead (t : TrieCapture) (path : Nibs) (val : Bytes) : TrieCapture :=
  { t with origin := (path, val) :: t.origin.filter (fun e => ¬ e.1 = path) }

/-- Association-list lookup keyed by nibble paths. -/
def lookupP (m : List (Nibs × Bytes)) (p : Nibs) : Option Bytes :=
  (m.find? (fun e => e.1 = p)).map (·.2)

/-- `getOldv` (extended capture file): the cached original value of a node;
a missing entry is Go's nil slice, i.e. the empty byte string. -/
def TrieCapture.getOldv (t : TrieCapture) (path : Nibs) : Bytes :=
  (lookupP t.origin path).getD []

/-- `deleteList` (src/trie/trie_capture.go): the tracked deleted paths. -/
def TrieCapture.deleteList (t : TrieCapture) : List Nibs := t.del

/-- `children.set i c` on a branch child list. -/
def setChild (ch : List (Option Node)) (i : Nat) (c : Option Node) : List (Option Node) :=
  ch.set i c

/-- The 17 empty child slots of a fresh `fullNode`. -/
def emptyChildren : List (Option Node) := List.replicate 17 none

/-- `resolve` (src/trie/trie.go lines 122-127): a hash reference would be
loaded from the backing store; resolution against the store is not part of
this in-memory embedding, so hitting one yields `none` (unavailable). All
other nodes resolve to themselves. -/
def resolveM : Node → Option Node
  | .hash _ => none
  | n => some n

/-- The value component of `tryGet` (src/trie/trie.go lines 86-120), on the
remaining key suffix (`key[pos:]` in the source). The `newnode`/`didResolve`
components only splice store-resolved nodes back into the tree and are the
identity on materialized tries. `some none` is "not found", `none` models
hitting an unresolved hash reference (or a Go panic on malformed input). -/
def tryGetV : Option Node → Nibs → Option (Option Bytes)
  | none, _ => some none
  | some (.value v), _ => some (some v)
  | some (.short k val _), key =>
      if key.take k.length ≠ k then some none
      else tryGetV (some val) (key.drop k.length)
  | some (.full ch _), key =>
      match key with
      | [] => none
      | i :: rest =>
        match h : ch.get? i with
        | none => none
        | some c => tryGetV c rest
  | some (.hash _), _ => none
termination_by n _ => sizeOf n
decreasing_by
  all_goals simp_wf
  all_goals try omega
  all_goals
    (have hm : c ∈ ch := List.get?_mem h
     have := List.sizeOf_lt_of_mem hm
     cases c <;> simp at this ⊢ <;> omega)

/-- `insert` (src/trie/trie.go lines 187-266), threading the change tracker
state through the `t.capture.onInsert` call sites. The trie argument is
`none` for Go's nil node; the `value` argument is a node, exactly as in the
source (the recursive split calls pass `n.Val`). A `none` result models a Go
panic (type assertion or out-of-range index on malformed input) or hitting an
unresolved hash reference, which would require the backing store. -/
def insertN (n : Option Node) (pre key : Nibs) (value : Node) (cap : TrieCapture) :
    Option (Bool × Node × TrieCapture) :=
  if key = [] then
    match n, value with
    | some (.value v), .value w => some (decide (¬ v = w), .value w, cap)
    | some (.value _), _ => none
    | _, _ => some (true, value, cap)
  else
    match n with
    | some (.short nk nv nf) =>
      let matchlen := prefixLen key nk
      if matchlen = nk.length then
        -- whole key segment matches: recurse into the value
        match insertN (some nv) (pre ++ key.take matchlen) (key.drop matchlen) value cap with
        | none => none
        | some (dirty, nn, cap') =>
          if !dirty then some (false, .short nk nv nf, cap')
          else some (true, .short nk nn newFlag, cap')
      else
        -- branch out at the index where the keys differ
        match insertN none (pre ++ nk.take (matchlen + 1)) (nk.drop (matchlen + 1)) nv cap with
        | none => none
        | some (_, c1, cap1) =>
          match insertN none (pre ++ key.take (matchlen + 1)) (key.drop (matchlen + 1)) value cap1 with
          | none => none
          | some (_, c2, cap2) =>
            match nk.get? matchlen, key.get? matchlen with
            | some i1, some i2 =>
              let branch := Node.full (setChild (setChild emptyChildren i1 (some c1)) i2 (some c2)) newFlag
              if matchlen = 0 then some (true, branch, cap2)
              else
                some (true, .short (key.take matchlen) branch newFlag,
                      cap2.onInsert (pre ++ key.take matchlen))
            | _, _ => none
    | some (.full ch nf) =>
      match key with
      | [] => none
      | i :: rest =>
        match hch : ch.get? i with
        | none => none
        | some child =>
          match insertN child (pre ++ [i]) rest value cap with
          | none => none
          | some (dirty, nn, cap') =>
            if !dirty then some (false, .full ch nf, cap')
            else some (true, .full (setChild ch i (some nn)) newFlag, cap')
    | none =>
      some (true, .short key value newFlag, cap.onInsert pre)
    | some (.hash _) => none
    | some (.value _) => none
termination_by sizeOf n
decreasing_by
  all_goals simp_wf
  all_goals try omega
  all_goals
    (have hm : child ∈ ch := List.get?_mem hch
     have := List.sizeOf_lt_of_mem hm
     cases child <;> simp at this ⊢ <;> omega)

/-- The single-remaining-child scan in `delete` (src/trie/trie.go lines
333-343): `-1` = no non-nil child seen yet, `-2` = at least two non-nil
children (the Go loop breaks there). -/
def childScan : List (Option Node) → Nat → Int → Int
  | [], _, pos => pos
  | none :: rest, i, pos => childScan rest (i + 1) pos
  | some _ :: rest, i, pos => if pos = -1 then childScan rest (i + 1) (Int.ofNat i) else -2

def singlePos (l : List (Option Node)) : Int := childScan l 0 (-1)

/-- `delete` (src/trie/trie.go lines 271-395), threading the change tracker
through the `t.capture.onDelete` call sites. A `none` result models a Go
panic, an unresolved hash reference (`resolve` against the store), or the
short-node rebuild with a nil child (reachable only from non-canonical
nested short nodes, which well-formed tries exclude). -/
def deleteN (n : Option Node) (pre key : Nibs) (cap : TrieCapture) :
    Option (Bool × Option Node × TrieCapture) :=
  match n with
  | some (.short nk nv nf) =>
    let matchlen := prefixLen key nk
    if matchlen < nk.length then
      some (false, some (.short nk nv nf), cap)  -- don't replace n on mismatch
    else if matchlen = key.length then
      some (true, none, cap.onDelete pre)        -- remove n entirely for whole matches
    else
      match deleteN (some nv) (pre ++ key.take nk.length) (key.drop nk.length) cap with
      | none => none
      | some (dirty, child, cap') =>
        if !dirty then some (false, some (.short nk nv nf), cap')
        else
          match child with
          | some (.short ck cv _) =>
            -- the child short node is merged into its parent
            some (true, some (.short (nk ++ ck) cv newFlag), cap'.onDelete (pre ++ nk))
          | some c => some (true, some (.short nk c newFlag), cap')
          | none => none
  | some (.full ch nf) =>
    match key with
    | [] => none
    | i :: rest =>
      match hch : ch.get? i with
      | none => none
      | some child =>
        match deleteN child (pre ++ [i]) rest cap with
        | none => none
        | some (dirty, nn, cap') =>
          if !dirty then some (false, some (.full ch nf), cap')
          else
            let ch' := setChild ch i nn
            match nn with
            | some _ => some (true, some (.full ch' newFlag), cap')
            | none =>
              let pos := singlePos ch'
              if pos ≥ 0 then
                if pos ≠ 16 then
                  match ch'.get? pos.toNat with
                  | some (some cpos) =>
                    match resolveM cpos with
                    | none => none
                    | some (.short ck cv _) =>
                      some (true, some (.short (pos.toNat :: ck) cv newFlag),
                            cap'.onDelete (pre ++ [pos.toNat]))
                    | some _ =>
                      some (true, some (.short [pos.toNat] (cpos) newFlag), cap')
                  | _ => none
                else
                  match ch'.get? 16 with
                  | some (some c16) => some (true, some (.short [16] c16 newFlag), cap')
                  | _ => none
              else
                some (true, some (.full ch' newFlag), cap')
  | some (.value _) => some (true, none, cap)
  | none => some (false, none, cap)
  | some (.hash _) => none
termination_by sizeOf n
decreasing_by
  all_goals simp_wf
  all_goals try omega
  all_goals
    (have hm : child ∈ ch := List.get?_mem hch
     have := List.sizeOf_lt_of_mem hm
     cases child <;> simp at this ⊢ <;> omega)

/-- The in-memory state of a `Trie` that the structural operations touch:
the root node and the change tracker. -/
structure TrieM where
  root : Option Node
  cap  : TrieCapture
  deriving Repr

/-- `NewEmpty` over a fresh tracker: an empty trie (src/trie/trie.go
lines 64-67 with the tracker wired as the spec assumes). -/
def emptyTrie : TrieM := ⟨none, newTracer⟩

/-- `tryUpdate` (src/trie/trie.go lines 169-185): an empty value routes to
`delete`, otherwise to `insert`; the root is replaced only on success. -/
def tryUpdate (t : TrieM) (key value : Bytes) : Option TrieM :=
  let k := keybytesToHex key
  if value.length ≠ 0 then
    match insertN t.root [] k (.value value) t.cap with
    | none => none
    | some (_, n, cap') => some ⟨some n, cap'⟩
  else
    match deleteN t.root [] k t.cap with
    | none => none
    | some (_, n, cap') => some ⟨n, cap'⟩

/-- `Update` (src/trie/trie.go lines 162-165): the error from `tryUpdate` is
swallowed, leaving the trie unchanged on failure. -/
def UpdateT (t : TrieM) (key value : Bytes) : TrieM :=
  (tryUpdate t key value).getD t

/-- Modelled from the spec (§4.H; `Trie.Delete` is not under `src/`, the
spec gives `delete(key)` over the same recursive `delete` helper): delete
with the hex-expanded key and install the new root. -/
def DeleteT (t : TrieM) (key : Bytes) : Option TrieM :=
  match deleteN t.root [] (keybytesToHex key) t.cap with
  | none => none
  | some (_, n, cap') => some ⟨n, cap'⟩

/-- `TryGet` (src/trie/trie.go lines 78-84), value component: `some none`
is a plain "not found", `none` a resolution failure. -/
def TryGetT (t : TrieM) (key : Bytes) : Option (Option Bytes) :=
  tryGetV t.root (keybytesToHex key)

/-- `Get` (src/trie/trie.go lines 70-75): errors are swallowed and the
value bytes (nil on miss) are returned; nil is the empty byte string. -/
def GetT (t : TrieM) (key : Bytes) : Bytes :=
  ((TryGetT t key).getD none).getD []

/-! ### Well-formedness of materialized tries

The invariants below describe the tries reachable by the exported operations:
hex-nibble keys carry the terminator `16` exactly at the end, value nodes sit
exactly at terminator positions, and branch nodes have 17 slots. -/

/-- The shape of a stored leaf key / remaining hex-key suffix: nibbles below
16 followed by the terminator 16. -/
def leafKey (k : Nibs) : Bool := k.getLast? = some 16 && k.dropLast.all (· < 16)

/-- The shape of an extension key: nonempty, all nibbles below 16. -/
def extKey (k : Nibs) : Bool := !k.isEmpty && k.all (· < 16)

mutual
/-- Well-formed materialized structural node. -/
def wfN : Node → Bool
  | .value _ => false
  | .hash _ => false
  | .short k v _ =>
    (match v with
     | .value _ => leafKey k
     | _ => extKey k && wfN v)
  | .full ch _ => decide (ch.length = 17) && wfSlots ch 0
/-- Well-formed branch slots from index `i` on: structural children below
slot 16, an optional inline value at slot 16. -/
def wfSlots : List (Option Node) → Nat → Bool
  | [], _ => true
  | c :: rest, i =>
    (if i < 16 then
      (match c with | none => true | some n => wfN n)
     else
      (match c with | none => true | some (.value _) => true | _ => false)) &&
    wfSlots rest (i + 1)
end

/-- Well-formedness lifted to Go's nilable node. -/
def wfOpt : Option Node → Bool
  | none => true
  | some n => wfN n

/-- Well-formed trie root. -/
def wfRoot (t : TrieM) : Bool :=
  match t.root with
  | none => true
  | some n => wfN n

/-- `hashRoot` (src/trie/trie.go lines 151-160): a nil root yields the
empty-trie-root constant. Hashing a non-nil root runs the hasher pipeline,
which is not under `src/`; the claims about `Hash` only exercise the nil
branch, so the non-nil branch is left unavailable. -/
def hashRoot (t : TrieM) : Option Hash :=
  match t.root with
  | none => some emptyRootBytes
  | some _ => none

/-- `Hash` (src/trie/trie.go lines 144-148): `BytesToHash` of the 32-byte
`hashRoot` result is the identity. -/
def HashT (t : TrieM) : Option Hash := hashRoot t

/-! ### RLP encoding (canonical node serialization)

Modelled from the spec (§4.C; the `rlp` package is not under `src/`). -/

/-- Big-endian byte representation of a natural number (no leading zeros). -/
def natBe (n : Nat) : Bytes :=
  if h : n = 0 then [] else natBe (n / 256) ++ [n % 256]
decreasing_by exact Nat.div_lt_self (Nat.pos_of_ne_zero h) (by omega)

/-- Modelled from the spec (§4.C): RLP encoding of a byte string. -/
def rlpEncStr (s : Bytes) : Bytes :=
  match s with
  | [b] => if b < 0x80 then [b] else [0x81, b]
  | _ =>
    if s.length < 56 then (0x80 + s.length) :: s
    else (0xb7 + (natBe s.length).length) :: (natBe s.length ++ s)

/-- Modelled from the spec (§4.C): RLP list header prepended to an encoded
payload. -/
def rlpEncList (payload : Bytes) : Bytes :=
  if payload.length < 56 then (0xc0 + payload.length) :: payload
  else (0xf7 + (natBe payload.length).length) :: (natBe payload.length ++ payload)

mutual
/-- Modelled from the spec (§4.C; the node encoder is not under `src/`):
short nodes become 2-element lists `[compactKey, child-ref]`, branch nodes
17-element lists; a child reference is the child's 32-byte hash, an empty
item for nil, or the embedded encoding for small collapsed children; value
and hash nodes are raw byte items. -/
def encodeNode : Node → Bytes
  | .short k v _ => rlpEncList (rlpEncStr (hexToCompact k) ++ encodeRef (some v))
  | .full ch _ => rlpEncList (encodeRefs ch)
  | .hash h => rlpEncStr h
  | .value v => rlpEncStr v
termination_by n => sizeOf n
decreasing_by
  all_goals simp_wf
  all_goals try omega
  all_goals (cases k <;> simp <;> omega)
def encodeRefs : List (Option Node) → Bytes
  | [] => []
  | c :: rest => encodeRef c ++ encodeRefs rest
termination_by l => sizeOf l
decreasing_by all_goals simp_wf <;> omega
def encodeRef : Option Node → Bytes
  | none => rlpEncStr []
  | some (.hash h) => rlpEncStr h
  | some (.value v) => rlpEncStr v
  | some n => encodeNode n
termination_by c => sizeOf c
decreasing_by all_goals simp_wf <;> omega
end

/-! ### RLP decoding and node decoding -/

/-- Item kinds of the recursive length prefix encoding. -/
inductive RlpKind where
  | str
  | list
  deriving Repr, DecidableEq

/-- Modelled from the spec (§4.C): `rlp.Split` reads the first item of a
buffer and returns its kind, its content, and the rest of the buffer. -/
def rlpSplit (buf : Bytes) : Option (RlpKind × Bytes × Bytes) :=
  match buf with
  | [] => none
  | b :: rest =>
    if b < 0x80 then some (.str, [b], rest)
    else if b < 0xb8 then
      let n := b - 0x80
      if rest.length < n then none else some (.str, rest.take n, rest.drop n)
    else if b < 0xc0 then
      let ln := b - 0xb7
      if rest.length < ln then none
      else
        let n := beToNat (rest.take ln)
        let body := rest.drop ln
        if body.length < n then none else some (.str, body.take n, body.drop n)
    else if b < 0xf8 then
      let n := b - 0xc0
      if rest.length < n then none else some (.list, rest.take n, rest.drop n)
    else
      let ln := b - 0xf7
      if rest.length < ln then none
      else
        let n := beToNat (rest.take ln)
        let body := rest.drop ln
        if body.length < n then none else some (.list, body.take n, body.drop n)
where
  beToNat (l : Bytes) : Nat := l.foldl (fun acc x => acc * 256 + x) 0

/-- `rlp.SplitList`: split off the first item and require it to be a list. -/
def rlpSplitList (buf : Bytes) : Option (Bytes × Bytes) :=
  match rlpSplit buf with
  | some (.list, content, rest) => some (content, rest)
  | _ => none

/-- `rlp.SplitString`: split off the first item and require it to be a
string. -/
def rlpSplitString (buf : Bytes) : Option (Bytes × Bytes) :=
  match rlpSplit buf with
  | some (.str, content, rest) => some (content, rest)
  | _ => none

/-- `rlp.CountValues`: the number of consecutive items in a payload
(fuelled; the fuel bounds the item count by the buffer length). -/
def countValues : Nat → Bytes → Option Nat
  | _, [] => some 0
  | 0, _ => none
  | fuel + 1, buf =>
    match rlpSplit buf with
    | none => none
    | some (_, _, rest) =>
      match countValues fuel rest with
      | none => none
      | some c => some (c + 1)

/-- `hashLen` (src/trie/trie_committer.go decoder half, line 275). -/
def hashLen : Nat := 32

mutual
/-- `decodeNodeUnsafe` (src decoder, lines 214-232), fuelled for the
embedded-node recursion: split the list, count elements, dispatch to short
(2) or full (17). -/
def decodeNode (fuel : Nat) (hash : Option Hash) (buf : Bytes) : Option Node :=
  match fuel with
  | 0 => none
  | fuel + 1 =>
    if buf.isEmpty then none
    else
      match rlpSplitList buf with
      | none => none
      | some (elems, _) =>
        match countValues (elems.length + 1) elems with
        | some 2 => decodeShort fuel hash elems
        | some 17 => decodeFull fuel hash elems
        | _ => none
/-- `decodeShort` (src decoder, lines 234-254). -/
def decodeShort (fuel : Nat) (hash : Option Hash) (elems : Bytes) : Option Node :=
  match rlpSplitString elems with
  | none => none
  | some (kbuf, rest) =>
    let flag : NodeFlag := ⟨hash, false⟩
    let key := compactToHex kbuf
    if hasTerm key then
      match rlpSplitString rest with
      | none => none
      | some (val, _) => some (.short key (.value val) flag)
    else
      match decodeRef fuel rest with
      | none => none
      | some (some r, _) => some (.short key r flag)
      | some (none, _) => none
/-- `decodeFull` (src decoder, lines 256-273). -/
def decodeFull (fuel : Nat) (hash : Option Hash) (elems : Bytes) : Option Node :=
  match decodeChildren fuel 16 elems with
  | none => none
  | some (kids, rest) =>
    match rlpSplitString rest with
    | none => none
    | some (val, _) =>
      let kids17 := kids ++ [if val.length > 0 then some (Node.value val) else none]
      some (.full kids17 ⟨hash, false⟩)
/-- The 16-iteration child loop of `decodeFull`. -/
def decodeChildren (fuel : Nat) (count : Nat) (elems : Bytes) :
    Option (List (Option Node) × Bytes) :=
  match count with
  | 0 => some ([], elems)
  | c + 1 =>
    match decodeRef fuel elems with
    | none => none
    | some (cld, rest) =>
      match decodeChildren fuel c rest with
      | none => none
      | some (kids, rest') => some (cld :: kids, rest')
/-- `decodeRef` (src decoder, lines 277-300): an embedded list (must encode
in fewer than 32 bytes), an empty string (nil), or a 32-byte hash. -/
def decodeRef (fuel : Nat) (buf : Bytes) : Option (Option Node × Bytes) :=
  match rlpSplit buf with
  | none => none
  | some (kind, val, rest) =>
    match kind with
    | .list =>
      if buf.length - rest.length > hashLen then none
      else
        match decodeNode fuel none buf with
        | none => none
        | some n => some (some n, rest)
    | .str =>
      if val.length = 0 then some (none, rest)
      else if val.length = 32 then some (some (.hash val), rest)
      else none
end

/-- `mustDecodeNode` (src, lines 184-190): panics on decode failure, which
the `Option` models; the fuel is ample for any terminating decode. -/
def mustDecodeNode (hash : Hash) (buf : Bytes) : Option Node :=
  decodeNode (buf.length + 1) (some hash) buf

/-! ### NodeSet and committer (src/trie/trie_nodeset.go, src/trie/trie_committer.go) -/

/-- `memoryNode` (src/trie/trie_nodeset.go lines 17-21); the byte-size field
is unused by the core and omitted. -/
structure MemoryNode where
  hash : Hash
  node : Node
  deriving Repr

/-- Association-list update (Go map assignment). -/
def assocSet {α : Type} (m : List (Nibs × α)) (p : Nibs) (v : α) : List (Nibs × α) :=
  (p, v) :: m.filter (fun e => ¬ e.1 = p)

/-- Association-list lookup for `Nibs`-keyed maps of any value type. -/
def assocGet {α : Type} (m : List (Nibs × α)) (p : Nibs) : Option α :=
  (m.find? (fun e => e.1 = p)).map (·.2)

/-- `NodeSet` (src/trie/trie_nodeset.go lines 38-44): insertion-ordered
updates, the delete map, and the dirty leaves. -/
structure NodeSetS where
  owner    : Hash
  updOrder : List Nibs
  updNodes : List (Nibs × (MemoryNode × Bytes))  -- node plus previous value
  deletes  : List (Nibs × Bytes)
  leaves   : List (Bytes × Hash)
  deriving Repr

/-- `NewNodeSet` (src/trie/trie_nodeset.go lines 49-57). -/
def NewNodeSet (owner : Hash) : NodeSetS := ⟨owner, [], [], [], []⟩

/-- `markUpdated` (src/trie/trie_nodeset.go lines 61-67). -/
def NodeSetS.markUpdated (s : NodeSetS) (path : Nibs) (node : MemoryNode) (oldv : Bytes) :
    NodeSetS :=
  { s with updOrder := s.updOrder ++ [path],
           updNodes := assocSet s.updNodes path (node, oldv) }

/-- `markDeleted` (src/trie/trie_nodeset.go lines 70-72). -/
def NodeSetS.markDeleted (s : NodeSetS) (path : Nibs) (oldv : Bytes) : NodeSetS :=
  { s with deletes := assocSet s.deletes path oldv }

/-- `addLeaf` (src/trie/trie_nodeset.go lines 75-77). -/
def NodeSetS.addLeaf (s : NodeSetS) (blob : Bytes) (parent : Hash) : NodeSetS :=
  { s with leaves := s.leaves ++ [(blob, parent)] }

/-- `MergedNodeSet` (src/trie/trie_nodeset.go lines 80-95), as an
association list from owner to set. -/
structure MergedNodeSetS where
  sets : List (Hash × NodeSetS)
  deriving Repr

def NewMergedNodeSet : MergedNodeSetS := ⟨[]⟩

/-- `Merge`: reject a duplicate owner, else install the set. -/
def MergedNodeSetS.merge (m : MergedNodeSetS) (other : NodeSetS) :
    Option MergedNodeSetS :=
  if (m.sets.find? (fun e => e.1 = other.owner)).isSome then none
  else some ⟨m.sets ++ [(other.owner, other)]⟩

/-- Modelled from the spec (§4.G; `simplifyNode` is not under `src/` and the
spec only says the update entry carries the collapsed node): the node is
stored as-is. -/
def simplifyNode (n : Node) : Node := n

/-- `nodeCommit` (src/trie/trie_committer.go lines 124-171): a collapsed
node with a cached hash becomes an update entry (plus an optional leaf); a
hash node passes through; an embedded node is marked deleted if it had a
previous on-disk blob. -/
def nodeCommitC (cap : TrieCapture) (collectLeaf : Bool) (path : Nibs)
    (collapsed : Node) (ns : NodeSetS) : Node × NodeSetS :=
  match (collapsed.cache).1 with
  | some h =>
    let mnode : MemoryNode := ⟨h, simplifyNode collapsed⟩
    let oldv := cap.getOldv path
    let ns1 := ns.markUpdated path mnode oldv
    let ns2 :=
      if collectLeaf then
        match collapsed with
        | .short _ (.value val) _ => ns1.addLeaf val h
        | _ => ns1
      else ns1
    (.hash h, ns2)
  | none =>
    match collapsed with
    | .hash h => (.hash h, ns)
    | _ =>
      let oldv := cap.getOldv path
      if oldv.length ≠ 0 then (collapsed, ns.markDeleted path oldv)
      else (collapsed, ns)

mutual
/-- `commit` (src/trie/trie_committer.go lines 51-92): collapse a node into
its hash-addressed form, collecting dirty nodes into the set. The source
first returns the cached hash when `n.cache()` yields a non-dirty hash;
since `cache()` is `(nil, true)` on hash and value nodes, that check is
inlined into the short and full cases here (the hash case returns the node
either way). A `none` result models the Go panic on nil/value nodes. -/
def commitC (cap : TrieCapture) (collectLeaf : Bool) (path : Nibs) (n : Node)
    (ns : NodeSetS) : Option (Node × NodeSetS) :=
  match n with
  | .short k v f =>
    match f.hash, f.dirty with
    | some h, false => some (.hash h, ns)
    | _, _ =>
      match v with
      | .full ch2 f2 =>
        match commitC cap collectLeaf (path ++ k) (.full ch2 f2) ns with
        | none => none
        | some (childV, ns1) =>
          some (nodeCommitC cap collectLeaf path (.short (hexToCompact k) childV f) ns1)
      | _ => some (nodeCommitC cap collectLeaf path (.short (hexToCompact k) v f) ns)
  | .full ch f =>
    match f.hash, f.dirty with
    | some h, false => some (.hash h, ns)
    | _, _ =>
      match commitKidsC cap collectLeaf path 0 (ch.take 16) ns with
      | none => none
      | some (kids, ns1) =>
        let ch16 : Option Node := (ch.get? 16).getD none
        some (nodeCommitC cap collectLeaf path (.full (kids ++ [ch16]) f) ns1)
  | .hash h => some (.hash h, ns)
  | .value _ => none
termination_by sizeOf n
decreasing_by
  all_goals simp_wf
  all_goals try omega
  all_goals
    (have h16 : ∀ (m : Nat) (l : List (Option Node)) (fl : NodeFlag),
        sizeOf (l.take m) < 1 + sizeOf l + sizeOf fl := by
       intro m l fl
       have hle : ∀ (m : Nat) (l : List (Option Node)), sizeOf (l.take m) ≤ sizeOf l := by
         intro m l
         induction l generalizing m with
         | nil => cases m <;> simp
         | cons a t ih =>
           cases m with
           | zero => simp; omega
           | succ m => simp; have := ih m; omega
       have := hle m l
       omega
     exact h16 16 _ _)
/-- `commitChildren` (src/trie/trie_committer.go lines 95-122), walking the
16 child slots; hash children are kept, nil children stay nil, the rest are
committed recursively. -/
def commitKidsC (cap : TrieCapture) (collectLeaf : Bool) (path : Nibs) (i : Nat)
    (ch : List (Option Node)) (ns : NodeSetS) :
    Option (List (Option Node) × NodeSetS) :=
  match ch with
  | [] => some ([], ns)
  | none :: rest =>
    match commitKidsC cap collectLeaf path (i + 1) rest ns with
    | none => none
    | some (kids, ns1) => some (none :: kids, ns1)
  | some (.hash h) :: rest =>
    match commitKidsC cap collectLeaf path (i + 1) rest ns with
    | none => none
    | some (kids, ns1) => some (some (.hash h) :: kids, ns1)
  | some c :: rest =>
    match commitC cap collectLeaf (path ++ [i]) c ns with
    | none => none
    | some (hashed, ns1) =>
      match commitKidsC cap collectLeaf path (i + 1) rest ns1 with
      | none => none
      | some (kids, ns2) => some (some hashed :: kids, ns2)
termination_by sizeOf ch
decreasing_by all_goals simp_wf <;> omega
end

/-- `committer.Commit` (src/trie/trie_committer.go lines 28-48): collapse
the root, then sweep the tracker's delete-list, emitting a delete entry for
every deleted path whose previous blob is non-empty. -/
def committerCommit (cap : TrieCapture) (collectLeaf : Bool) (n : Node)
    (ns : NodeSetS) : Option (Hash × NodeSetS) :=
  match commitC cap collectLeaf [] n ns with
  | none => none
  | some (h, ns1) =>
    let ns2 := cap.deleteList.foldl
      (fun acc path =>
        let oldv := cap.getOldv path
        if oldv.length = 0 then acc else acc.markDeleted path oldv) ns1
    match h with
    | .hash hb => some (hb, ns2)
    | _ => none

/-! ### TrieDB (src/trie/trie_db.go, src/trie/trie_db_cleaner.go) -/

/-- Modelled from the spec (§3 "Cached-node entry"; the `cachedNode` file is
not under `src/`): decoded node (absent only on the zero-hash sentinel),
parent reference count, outgoing multi-references, flush-list links. -/
structure CachedNode where
  nodeVal   : Option Node
  parents   : Nat
  children  : List (Hash × Nat)
  flushPrev : Hash
  flushNext : Hash
  deriving Repr

mutual
/-- Modelled from the spec (§4.I; `forChilds`' node walk is not under
`src/`): the hash references contained in a stored node. -/
def gatherChildren : Node → List Hash
  | .short _ v _ => gatherChildren v
  | .full ch _ => gatherList ch
  | .hash h => [h]
  | .value _ => []
def gatherList : List (Option Node) → List Hash
  | [] => []
  | none :: rest => gatherList rest
  | some n :: rest => gatherChildren n ++ gatherList rest
end

/-- Modelled from the spec (§4.I `forChilds`): external children first, then
the hash references inside the stored node. -/
def CachedNode.childHashes (c : CachedNode) : List Hash :=
  c.children.map (·.1) ++ (match c.nodeVal with | none => [] | some n => gatherChildren n)

/-- Modelled from the spec (§4.I: `nodeBlob` returns the re-encoded blob of
a dirty entry; `cachedNode.rlp` is not under `src/`). -/
def CachedNode.rlp (c : CachedNode) : Bytes :=
  match c.nodeVal with
  | none => []
  | some n => encodeNode n

/-- The `TrieDB` state (src/trie/trie_db.go lines 14-22): the disk store
contents, the dirty cache and the flush-list endpoints. -/
structure TrieDBS where
  disk    : List (Hash × Bytes)
  dirties : List (Hash × CachedNode)
  oldest  : Hash
  newest  : Hash
  deriving Repr

/-- `NewTrieDB` (src/trie/trie_db.go lines 27-35): a sentinel entry at the
zero hash holding the root-pin children map; endpoints start at zero. -/
def NewTrieDBS (disk : List (Hash × Bytes)) : TrieDBS :=
  ⟨disk, [(zeroHash, ⟨none, 0, [], zeroHash, zeroHash⟩)], zeroHash, zeroHash⟩

/-- `nodeBlob` (src/trie/trie_db.go lines 88-108): the zero hash is never
resolvable; a dirty entry answers with its re-encoded blob; otherwise the
disk store is queried and an empty result is "not found". -/
def TrieDBS.nodeBlobD (db : TrieDBS) (h : Hash) : Option Bytes :=
  if h = zeroHash then none
  else
    match assocGet db.dirties h with
    | some dirty => some dirty.rlp
    | none =>
      match assocGet db.disk h with
      | some enc => if enc.length = 0 then none else some enc
      | none => none

/-- Update an entry in place when present (Go mutates through the map;
a missing entry would be a Go nil-pointer panic, which the dirty-cache
invariants rule out at every call site). -/
def updEntry (d : List (Hash × CachedNode)) (h : Hash) (f : CachedNode → CachedNode) :
    List (Hash × CachedNode) :=
  match assocGet d h with
  | none => d
  | some c => assocSet d h (f c)

/-- The `parents++` bump of `insert`'s `forChilds` callback
(src/trie/trie_db.go lines 139-143). -/
def bumpParent (d : List (Hash × CachedNode)) (child : Hash) : List (Hash × CachedNode) :=
  match assocGet d child with
  | none => d
  | some c => assocSet d child { c with parents := c.parents + 1 }

/-- `insert` (src/trie/trie_db.go lines 129-153): idempotent; creates the
entry, bumps the parent counters of cached children and appends the entry
to the flush-list tail. -/
def TrieDBS.insertD (db : TrieDBS) (h : Hash) (n : Node) : TrieDBS :=
  if (assocGet db.dirties h).isSome then db
  else
    let entry : CachedNode := ⟨some n, 0, [], db.newest, zeroHash⟩
    let d1 := entry.childHashes.foldl bumpParent db.dirties
    let d2 := assocSet d1 h entry
    if db.oldest = zeroHash then
      { db with dirties := d2, oldest := h, newest := h }
    else
      { db with dirties := updEntry d2 db.newest (fun e => { e with flushNext := h }),
                newest := h }

/-- Child-count bump of `reference`. -/
def bumpChild (m : List (Hash × Nat)) (child : Hash) : List (Hash × Nat) :=
  match assocGet m child with
  | none => (child, 1) :: m
  | some c => assocSet m child (c + 1)

/-- `reference` (src/trie/trie_db.go lines 204-218): no-op on uncached
children; an existing reference is only duplicated for the zero-hash
sentinel parent. -/
def TrieDBS.referenceD (db : TrieDBS) (child parent : Hash) : TrieDBS :=
  match assocGet db.dirties child with
  | none => db
  | some _ =>
    match assocGet db.dirties parent with
    | none => db
    | some pnode =>
      if (pnode.children.find? (fun e => e.1 = child)).isSome ∧ parent ≠ zeroHash then db
      else
        let d1 := updEntry db.dirties child (fun c => { c with parents := c.parents + 1 })
        let d2 := updEntry d1 parent (fun p => { p with children := bumpChild p.children child })
        { db with dirties := d2 }

/-- `cleaner.Put` (src/trie/trie_db_cleaner.go lines 19-41): uncache one
written hash, splicing it out of the flush-list. The Go `switch` takes the
first matching case, so a node that is both `oldest` and `newest` only
updates `oldest`. -/
def cleanerPut (db : TrieDBS) (key : Hash) : TrieDBS :=
  match assocGet db.dirties key with
  | none => db
  | some node =>
    let db1 :=
      if key = db.oldest then
        let d := updEntry db.dirties node.flushNext (fun e => { e with flushPrev := zeroHash })
        { db with oldest := node.flushNext, dirties := d }
      else if key = db.newest then
        let d := updEntry db.dirties node.flushPrev (fun e => { e with flushNext := zeroHash })
        { db with newest := node.flushPrev, dirties := d }
      else
        let d1 := updEntry db.dirties node.flushPrev (fun e => { e with flushNext := node.flushNext })
        let d2 := updEntry d1 node.flushNext (fun e => { e with flushPrev := node.flushPrev })
        { db with dirties := d2 }
    { db1 with dirties := db1.dirties.filter (fun e => ¬ e.1 = key) }

/-- `IdealBatchSize` (src/accdb/batch.go line 5). -/
def idealBatchSize : Nat := 100 * 1024

/-- Modelled from the spec (§6.1; the memorydb batch implementation is not
under `src/`): queued writes plus the queued key+value byte size. -/
structure BatchS where
  writes : List (Hash × Bytes)
  size   : Nat
  deriving Repr

def emptyBatch : BatchS := ⟨[], 0⟩

/-- Batch `Put`: queue a write and grow the value size by key+value bytes. -/
def BatchS.put (b : BatchS) (k : Hash) (v : Bytes) : BatchS :=
  ⟨b.writes ++ [(k, v)], b.size + k.length + v.length⟩

/-- Batch `Write`: flush the queued writes into the disk store. -/
def BatchS.writeTo (b : BatchS) (disk : List (Hash × Bytes)) : List (Hash × Bytes) :=
  b.writes.foldl (fun d kv => assocSet d kv.1 kv.2) disk

/-- Batch `Replay` into the cleaner: uncache every written key. -/
def BatchS.replayClean (b : BatchS) (db : TrieDBS) : TrieDBS :=
  b.writes.foldl (fun d kv => cleanerPut d kv.1) db

mutual
/-- `commit`, the private recursion of `TrieDB.Commit` (src/trie/trie_db.go
lines 297-329): children first, then the node itself into the batch; on
reaching the ideal batch size, write the batch, replay it into the cleaner
and reset it. Fuelled: the dirty cache is hash-addressed and acyclic in
practice, which recursion on the graph cannot see. -/
def commitRec : Nat → TrieDBS → BatchS → Hash → Option (TrieDBS × BatchS)
  | 0, _, _, _ => none
  | fuel + 1, db, batch, h =>
    match assocGet db.dirties h with
    | none => some (db, batch)
    | some node =>
      match commitList fuel db batch node.childHashes with
      | none => none
      | some (db1, batch1) =>
        let batch2 := batch1.put h node.rlp
        if batch2.size ≥ idealBatchSize then
          let db2 := { db1 with disk := batch2.writeTo db1.disk }
          some (batch2.replayClean db2, emptyBatch)
        else some (db1, batch2)
termination_by fuel _ _ _ => (fuel, 0)
/-- The `forChilds` traversal of `commit` over the child hash list. -/
def commitList : Nat → TrieDBS → BatchS → List Hash → Option (TrieDBS × BatchS)
  | _, db, batch, [] => some (db, batch)
  | fuel, db, batch, h :: rest =>
    match commitRec fuel db batch h with
    | none => none
    | some (db1, batch1) => commitList fuel db1 batch1 rest
termination_by fuel _ _ l => (fuel, l.length + 1)
end

/-- `TrieDB.Commit` (src/trie/trie_db.go lines 270-294): run the recursion,
write the batch leftovers, then replay them into the cleaner. -/
def TrieDBCommit (fuel : Nat) (db : TrieDBS) (root : Hash) : Option TrieDBS :=
  match commitRec fuel db emptyBatch root with
  | none => none
  | some (db1, batch) =>
    let db2 := { db1 with disk := batch.writeTo db1.disk }
    some (batch.replayClean db2)

/-- Errors of `TrieDB.Update` (src/trie/trie_db.go lines 157-202). -/
inductive UpdateErr where
  | missingNode (owner : Hash) (path : Nibs)
  | accountDecode
  deriving Repr, DecidableEq

/-- The per-owner insertion loop of `TrieDB.Update` (lines 178-187): walks
`updates.order` and fails if a path has no node entry. -/
def insertLoop (db : TrieDBS) (owner : Hash) (s : NodeSetS) :
    List Nibs → Except UpdateErr TrieDBS
  | [] => .ok db
  | path :: rest =>
    match assocGet s.updNodes path with
    | none => .error (.missingNode owner path)
    | some (n, _) => insertLoop (db.insertD n.hash n.node) owner s rest

/-- The owner loop of `TrieDB.Update`: storage tries first, the zero-owner
account trie last. -/
def ownersLoop (db : TrieDBS) (m : MergedNodeSetS) :
    List Hash → Except UpdateErr TrieDBS
  | [] => .ok db
  | owner :: rest =>
    match m.sets.find? (fun e => e.1 = owner) with
    | none => ownersLoop db m rest
    | some (_, s) =>
      match insertLoop db owner s s.updOrder with
      | .error e => .error e
      | .ok db1 => ownersLoop db1 m rest

/-- The leaf-linking loop of `TrieDB.Update` (lines 190-200); the account
decoding lives in the external `rlp`/`types` packages and is passed in. -/
def leavesLoop (decodeAccount : Bytes → Option Hash) (db : TrieDBS) :
    List (Bytes × Hash) → Except UpdateErr TrieDBS
  | [] => .ok db
  | (blob, parent) :: rest =>
    match decodeAccount blob with
    | none => .error .accountDecode
    | some root =>
      leavesLoop decodeAccount
        (if root ≠ emptyRootBytes then db.referenceD root parent else db) rest

/-- `TrieDB.Update` (src/trie/trie_db.go lines 157-202). -/
def dbUpdate (decodeAccount : Bytes → Option Hash) (db : TrieDBS) (m : MergedNodeSetS) :
    Except UpdateErr TrieDBS :=
  let order := ((m.sets.filter (fun e => ¬ e.1 = zeroHash)).map (·.1)) ++
    (if (m.sets.find? (fun e => e.1 = zeroHash)).isSome then [zeroHash] else [])
  match ownersLoop db m order with
  | .error e => .error e
  | .ok db1 =>
    match m.sets.find? (fun e => e.1 = zeroHash) with
    | none => .ok db1
    | some (_, s) => leavesLoop decodeAccount db1 s.leaves

/-! ### Trie construction (src/trie/trie.go `New`, reader glue) -/

/-- The result of `New` (src/trie/trie.go lines 49-61): an empty or decoded
root, a `MissingNodeError`, or the `mustDecodeNode` panic on a corrupt
blob. -/
inductive NewResult where
  | ok (root : Option Node)
  | missingNode (hash : Hash) (path : Nibs)
  | decodeFail
  deriving Repr

/-- `New` (src/trie/trie.go lines 49-61) over the reader glue of
`Trie.nodeBlob`: a zero or empty-trie root yields the empty trie; any other
root is resolved by blob lookup, a missing or empty blob being a
`MissingNodeError`. -/
def TrieNew (root : Hash) (db : TrieDBS) : NewResult :=
  if root ≠ zeroHash ∧ root ≠ emptyRootBytes then
    match db.nodeBlobD root with
    | none => .missingNode root []
    | some blob =>
      if blob.length = 0 then .missingNode root []
      else
        match mustDecodeNode root blob with
        | none => .decodeFail
        | some n => .ok (some n)
  else .ok none

/-! ### Invariants and reachability predicates used by the theorems -/

/-- The order/nodes invariant of a `NodeSet`: every path in `updates.order`
has an entry in `updates.nodes`. -/
def updInv (s : NodeSetS) : Prop :=
  ∀ p, p ∈ s.updOrder → (assocGet s.updNodes p).isSome

/-- A `NodeSet` built through the exported constructors
(src/trie/trie_nodeset.go): `NewNodeSet` followed by any interleaving of
`markUpdated`, `markDeleted` and `addLeaf`. -/
inductive NodeSetBuilt : NodeSetS → Prop where
  | new (owner : Hash) : NodeSetBuilt (NewNodeSet owner)
  | upd {s : NodeSetS} (p : Nibs) (m : MemoryNode) (o : Bytes) :
      NodeSetBuilt s → NodeSetBuilt (s.markUpdated p m o)
  | del {s : NodeSetS} (p : Nibs) (o : Bytes) :
      NodeSetBuilt s → NodeSetBuilt (s.markDeleted p o)
  | leaf {s : NodeSetS} (b : Bytes) (h : Hash) :
      NodeSetBuilt s → NodeSetBuilt (s.addLeaf b h)

/-- One mutation step on a `TrieDB` state as performed by `Update`
(`insert`) and by the commit cleaner (`cleaner.Put`). The cleaner only
replays keys the committer batch-wrote, which are hashes of stored trie
nodes, never the zero-hash sentinel. -/
inductive DbStep : TrieDBS → TrieDBS → Prop where
  | insert (db : TrieDBS) (h : Hash) (n : Node) : DbStep db (db.insertD h n)
  | clean (db : TrieDBS) (h : Hash) (hnz : ¬ h = zeroHash) : DbStep db (cleanerPut db h)

/-- `TrieDB` states reachable from a fresh database by `insert` and
`cleaner.Put` steps. -/
inductive DbReachable : TrieDBS → Prop where
  | init (disk : List (Hash × Bytes)) : DbReachable (NewTrieDBS disk)
  | step {a b : TrieDBS} : DbReachable a → DbStep a b → DbReachable b

/-- The flush-list links of a possible cache entry. -/
def optLinks (o : Option CachedNode) : Option (Hash × Hash) :=
  o.map (fun e => (e.flushPrev, e.flushNext))

/-- A forward walk of the flush-list inside a dirty map: starting at `start`
(zero terminates the walk), the visited non-sentinel hashes are `chain`;
each visited entry's `flushNext` leads to its successor and its `flushPrev`
names its predecessor, the walk's entry point carrying `prev`. -/
inductive FList (d : List (Hash × CachedNode)) : Hash → Hash → List Hash → Prop where
  | nil (prev : Hash) : FList d prev zeroHash []
  | cons (prev h : Hash) (e : CachedNode) (rest : List Hash)
      (hnz : ¬ h = zeroHash) (he : assocGet d h = some e) (hp : e.flushPrev = prev)
      (htl : FList d h e.flushNext rest) : FList d prev h (h :: rest)

/-- The flush-list seen as an explicit chain of hashes: walking `flushNext`
from `oldest` visits `chain`, which carries every dirty non-sentinel hash
exactly once; `newest` is the last element while the chain is nonempty.
The head's `flushPrev` is existentially absorbed and an empty chain says
nothing about `newest`: both can go stale, see the corresponding claim. -/
structure ChainOk (db : TrieDBS) (chain : List Hash) : Prop where
  links : ∃ p0, FList db.dirties p0 db.oldest chain
  mem : ∀ h, ¬ h = zeroHash → ((assocGet db.dirties h).isSome ↔ h ∈ chain)
  nodup : chain.Nodup
  sentinel : (assocGet db.dirties zeroHash).isSome
  newest : chain ≠ [] → chain.getLast? = some db.newest

/-- Entries of the dirty cache reachable from a root hash along cached
child references (the subgraph `TrieDB.Commit` flushes). -/
inductive DirtyReach (db : TrieDBS) (root : Hash) : Hash → Prop where
  | refl (e : CachedNode) (he : assocGet db.dirties root = some e) : DirtyReach db root root
  | step {b c : Hash} (e : CachedNode) : DirtyReach db root b →
      assocGet db.dirties b = some e → c ∈ e.childHashes →
      (assocGet db.dirties c).isSome → DirtyReach db root c

/-- A hash that the commit machinery has dealt with: either its entry is
gone from the dirty cache and its blob sits in the disk store, or it is
queued in the write batch. -/
def DoneW (db : TrieDBS) (batch : BatchS) (x : Hash) : Prop :=
  (assocGet db.dirties x = none ∧ ∃ v, assocGet db.disk x = some v) ∨
  x ∈ batch.writes.map Prod.fst

/-- The invariant `commit` maintains between the initial state `db0` and the
current state: the dirty cache only shrinks, surviving entries keep their
child references, every removed entry has been dealt with, and the children
of dealt-with entries are dealt with (post-order). -/
def CommitInv (db0 db : TrieDBS) (batch : BatchS) : Prop :=
  (∀ x, (assocGet db.dirties x).isSome = true → (assocGet db0.dirties x).isSome = true) ∧
  (∀ x e, assocGet db.dirties x = some e →
    ∃ e0, assocGet db0.dirties x = some e0 ∧ e.childHashes = e0.childHashes) ∧
  (∀ x, (assocGet db0.dirties x).isSome = true → assocGet db.dirties x = none →
    DoneW db batch x) ∧
  (∀ y e0 c, DoneW db batch y → assocGet db0.dirties y = some e0 →
    c ∈ e0.childHashes → (assocGet db0.dirties c).isSome = true → DoneW db batch c)

/-- What one commit step guarantees, from state `(db, batch)` to
`(db1, batch1)`, relative to the initial state `db0`: the invariant holds at
the target, dealt-with hashes stay dealt with, disk entries persist and the
dirty cache only shrinks. -/
def CommitPost (db0 db : TrieDBS) (batch : BatchS) (db1 : TrieDBS) (batch1 : BatchS) : Prop :=
  CommitInv db0 db1 batch1 ∧
  (∀ x, DoneW db batch x → DoneW db1 batch1 x) ∧
  (∀ x, (∃ v, assocGet db.disk x = some v) → ∃ v, assocGet db1.disk x = some v) ∧
  (∀ x, (assocGet db1.dirties x).isSome = true → (assocGet db.dirties x).isSome = true)

/-- The node-and-reference core of a cached entry, disregarding the mutable
flush-list links. -/
def sameCore (a b : CachedNode) : Prop :=
  a.nodeVal = b.nodeVal ∧ a.children = b.children

/-- The conclusions of the insert correctness bundle: the returned node is
well formed, looking up the inserted key yields the new value, all other
hex keys are unaffected, a `false` dirty flag means the trie and tracker
are returned unchanged, and re-inserting an already-present value reports
`false`. -/
def InsConc (n : Option Node) (key : Nibs) (v : Bytes) (cap : TrieCapture)
    (res : Bool × Node × TrieCapture) : Prop :=
  wfN res.2.1 = true ∧
  tryGetV (some res.2.1) key = some (some v) ∧
  (∀ k2, leafKey k2 = true → ¬ k2 = key → tryGetV (some res.2.1) k2 = tryGetV n k2) ∧
  (res.1 = false → n = some res.2.1 ∧ res.2.2 = cap) ∧
  (tryGetV n key = some (some v) → res.1 = false)

/-! ### Concrete instances for witnesses and counterexamples -/

/-- A sample non-zero 32-byte hash. -/
def sampleHash : Hash := List.replicate 31 0 ++ [1]

/-- A concrete tracker state for the committer witness: one deleted path
with a recorded non-empty original blob. -/
def capC2 : TrieCapture := ⟨[], [[0]], [([0], [7])]⟩

/-- A concrete clean-cached node for the committer witness. -/
def nC2 : Node := .short [16] (.value [1]) ⟨some sampleHash, false⟩

/-- The node set the committer returns on `capC2`/`nC2`. -/
def nsC2 : NodeSetS := ⟨zeroHash, [], [], [([0], [7])], []⟩


/-- The key bytes of "cat". -/
def catKey : Bytes := [0x63, 0x61, 0x74]

/-- The key bytes of "car". -/
def carKey : Bytes := [0x63, 0x61, 0x72]

/-- Scenario E4: `update("cat","1")`, `update("car","2")` on an empty trie. -/
def e4Trie : TrieM := UpdateT (UpdateT emptyTrie catKey [0x31]) carKey [0x32]

/-- The branch node children produced by the E4 build (slot 4 holds the
"cat" leaf, slot 2 the "car" leaf). -/
def e4Branch : List (Option Node) :=
  setChild (setChild emptyChildren 4 (some (.short [16] (.value [0x31]) newFlag)))
    2 (some (.short [16] (.value [0x32]) newFlag))

/-- Every delete entry of a `NodeSet` carries exactly the tracker's cached
previous blob of its path, and that blob is non-empty. -/
def deletesOk (cap : TrieCapture) (ns : NodeSetS) : Prop :=
  ∀ p b, assocGet ns.deletes p = some b → b = cap.getOldv p ∧ ¬ b = []

/-! ### Association-list lemmas -/

theorem find?_filter_ne {α : Type} (m : List (Nibs × α)) (p q : Nibs) (h : ¬ q = p) :
    (m.filter (fun e => ¬ e.1 = p)).find? (fun e => e.1 = q) =
      m.find? (fun e => e.1 = q) := by
  induction m with
  | nil => rfl
  | cons e rest ih =>
    by_cases hp : e.1 = p
    · have hq : ¬ (e.1 = q) := by rw [hp]; exact fun hc => h hc.symm
      rw [List.filter_cons_of_neg (by simp [hp]), ih,
        List.find?_cons_of_neg _ (by simp [hq])]
    · rw [List.filter_cons_of_pos (by simp [hp])]
      by_cases hq : e.1 = q
      · rw [List.find?_cons_of_pos _ (by simp [hq]), List.find?_cons_of_pos _ (by simp [hq])]
      · rw [List.find?_cons_of_neg _ (by simp [hq]), List.find?_cons_of_neg _ (by simp [hq]), ih]

theorem assocGet_set_self {α : Type} (m : List (Nibs × α)) (p : Nibs) (v : α) :
    assocGet (assocSet m p v) p = some v := by
  simp [assocGet, assocSet, List.find?_cons]

theorem assocGet_set_other {α : Type} (m : List (Nibs × α)) (p q : Nibs) (v : α)
    (h : ¬ q = p) : assocGet (assocSet m p v) q = assocGet m q := by
  unfold assocGet assocSet
  rw [List.find?_cons_of_neg _ (by simp; exact fun hc => h hc.symm),
    find?_filter_ne m p q h]

/-! ### C8 -/

/-- C8: on a freshly created empty trie, with no update or delete performed,
`Trie.Hash()` returns exactly the constant
0x56e81f171bcc55a6ff8345e692c0f86e5b48e01b996cadc001622fb5e363b421. -/
theorem c8_empty_trie_hash : HashT emptyTrie = some emptyRootBytes := rfl

/-! ### C5 -/

/-- C5: for every trie state and key, `Trie.Update(key, value)` with an
empty value produces exactly the same resulting trie (root and tracker) as
`Trie.Delete(key)`: `tryUpdate` routes an empty value to the same `delete`
call, and `Update` additionally swallows the error. -/
theorem c5_update_empty_is_delete (t : TrieM) (key : Bytes) :
    tryUpdate t key [] = DeleteT t key ∧ UpdateT t key [] = (DeleteT t key).getD t :=
  ⟨rfl, rfl⟩

/-! ### C7 -/

/-- C7: `New(id, db)` returns the empty trie (no error) when `id.Root` is
the zero hash or the empty-trie-root constant; for any other root hash whose
blob is absent from both the dirty cache and the disk store it returns a
`MissingNodeError` and no trie. -/
theorem c7_new_empty_or_missing (root : Hash) (db : TrieDBS) :
    ((root = zeroHash ∨ root = emptyRootBytes) → TrieNew root db = .ok none) ∧
    (¬ root = zeroHash → ¬ root = emptyRootBytes →
      assocGet db.dirties root = none → assocGet db.disk root = none →
      TrieNew root db = .missingNode root []) := by
  constructor
  · intro h
    unfold TrieNew
    rcases h with h | h <;> simp [h]
  · intro h1 h2 hd hk
    unfold TrieNew
    simp [h1, h2, TrieDBS.nodeBlobD, hd, hk]

/-- Witness for C7 at concrete inputs: the empty-root open and a missing
sample root over a fresh database. -/
theorem c7_new_empty_or_missing_witness :
    TrieNew emptyRootBytes (NewTrieDBS []) = .ok none ∧
    TrieNew sampleHash (NewTrieDBS []) = .missingNode sampleHash [] :=
  ⟨(c7_new_empty_or_missing emptyRootBytes (NewTrieDBS [])).1 (Or.inr rfl),
   (c7_new_empty_or_missing sampleHash (NewTrieDBS [])).2
     (by decide) (by decide) rfl rfl⟩

/-! ### C6 -/

/-- C6: deleting below a branch node so that exactly one child slot other
than 16 remains, with that child resolving to a short node, replaces the
branch with a single short node whose key is the slot nibble prepended to
the child's key (recording the child's path as deleted); and concretely
(E5) building `update("cat","1")`, `update("car","2")` then
`delete("cat")` leaves a single short node spelling "car" with value "2"
and no branch node. -/
theorem c6_delete_merges_short :
    (∀ (ch : List (Option Node)) (nf : NodeFlag) (pre rest : Nibs) (i p : Nat)
       (cap cap' : TrieCapture) (child : Option Node) (ck : Nibs) (cv : Node)
       (cf : NodeFlag),
       ch.get? i = some child →
       deleteN child (pre ++ [i]) rest cap = some (true, none, cap') →
       singlePos (setChild ch i none) = Int.ofNat p →
       ¬ p = 16 →
       (setChild ch i none).get? p = some (some (.short ck cv cf)) →
       deleteN (some (.full ch nf)) pre (i :: rest) cap =
         some (true, some (.short (p :: ck) cv newFlag), cap'.onDelete (pre ++ [p]))) ∧
    DeleteT e4Trie catKey =
      some ⟨some (.short (keybytesToHex carKey) (.value [0x32]) newFlag),
            ⟨[[]], [], []⟩⟩ := by
  constructor
  · intro ch nf pre rest i p cap cap' child ck cv cf hget hdel hpos hp16 hchild
    have h16 : ¬ ((p : Int) = (16 : Int)) := by omega
    have hge : ((p : Int)) ≥ 0 := by omega
    have hpos' : singlePos (setChild ch i none) = (p : Int) := by
      rw [hpos]; rfl
    have hchild' : (setChild ch i none)[p]? = some (some (.short ck cv cf)) := by
      rw [← List.get?_eq_getElem?]; exact hchild
    rw [deleteN]
    split
    · rename_i heq
      rw [hget] at heq
      cases heq
    · rename_i child2 heq
      rw [hget] at heq
      injection heq with heq2
      subst heq2
      simp [hdel, hpos', hge, h16, hchild', resolveM]
  · simp [DeleteT, e4Trie, UpdateT, tryUpdate, emptyTrie, insertN, deleteN, keybytesToHex,
      catKey, carKey, prefixLen, newTracer, TrieCapture.onInsert, TrieCapture.onDelete,
      listInsert, setChild, emptyChildren, singlePos, childScan, resolveM, newFlag]

/-- Witness for C6: the branch-fold rule applied at the concrete E5 branch
node (children at slots 2 and 4, deleting through slot 4). -/
theorem c6_delete_merges_short_witness :
    deleteN (some (.full e4Branch newFlag)) [6, 3, 6, 1, 7] (4 :: [16]) e4Trie.cap =
      some (true, some (.short (2 :: [16]) (.value [0x32]) newFlag),
        (e4Trie.cap.onDelete ([6, 3, 6, 1, 7] ++ [4])).onDelete ([6, 3, 6, 1, 7] ++ [2])) :=
  c6_delete_merges_short.1 e4Branch newFlag [6, 3, 6, 1, 7] [16] 4 2 e4Trie.cap
    (e4Trie.cap.onDelete ([6, 3, 6, 1, 7] ++ [4]))
    (some (.short [16] (.value [0x31]) newFlag)) [16] (.value [0x32]) newFlag
    rfl (by simp [deleteN, prefixLen]) rfl (by decide) rfl

/-! ### C2 -/

theorem deletesOk_markDeleted (cap : TrieCapture) (ns : NodeSetS) (p : Nibs)
    (h : deletesOk cap ns) (hv : ¬ cap.getOldv p = []) :
    deletesOk cap (ns.markDeleted p (cap.getOldv p)) := by
  intro q b hq
  have hq2 : assocGet (assocSet ns.deletes p (cap.getOldv p)) q = some b := hq
  by_cases hqp : q = p
  · subst hqp
    rw [assocGet_set_self] at hq2
    cases hq2
    exact ⟨rfl, hv⟩
  · rw [assocGet_set_other _ _ _ _ hqp] at hq2
    exact h q b hq2

theorem deletesOk_nodeCommit (cap : TrieCapture) (cl : Bool) (path : Nibs)
    (collapsed : Node) (ns : NodeSetS) (h : deletesOk cap ns) :
    deletesOk cap (nodeCommitC cap cl path collapsed ns).2 := by
  unfold nodeCommitC
  split
  · dsimp only
    split
    · split <;> exact h
    · exact h
  · split
    · exact h
    · dsimp only
      split
      · rename_i hv
        exact deletesOk_markDeleted cap ns path h (fun hc => hv (by rw [hc]; rfl))
      · exact h

theorem deletesOk_commit (cap : TrieCapture) (cl : Bool) :
    (∀ (path : Nibs) (n : Node) (ns : NodeSetS),
      ∀ res, commitC cap cl path n ns = some res → deletesOk cap ns → deletesOk cap res.2) ∧
    (∀ (path : Nibs) (i : Nat) (ch : List (Option Node)) (ns : NodeSetS),
      ∀ res, commitKidsC cap cl path i ch ns = some res → deletesOk cap ns → deletesOk cap res.2) := by
  refine commitC.mutual_induct cap cl _ _ ?_ ?_ ?_ ?_ ?_ ?_ ?_ ?_ ?_ ?_ ?_ ?_ ?_ ?_ ?_ ?_ ?_
  · -- short node with a clean cached hash: set unchanged
    intro path ns k v flags h hdirty hhash res hres hok
    cases v with
    | full ch2 f2 =>
      rw [commitC.eq_1, hhash, hdirty] at hres
      simp at hres
      subst hres
      exact hok
    | short k2 v2 f3 =>
      rw [commitC.eq_2 cap cl path ns k _ flags (fun a b hv => Node.noConfusion hv),
        hhash, hdirty] at hres
      simp at hres
      subst hres
      exact hok
    | hash h2 =>
      rw [commitC.eq_2 cap cl path ns k _ flags (fun a b hv => Node.noConfusion hv),
        hhash, hdirty] at hres
      simp at hres
      subst hres
      exact hok
    | value v2 =>
      rw [commitC.eq_2 cap cl path ns k _ flags (fun a b hv => Node.noConfusion hv),
        hhash, hdirty] at hres
      simp at hres
      subst hres
      exact hok
  · -- short node over a full child, child commit fails
    intro path ns k flags ch2 f2 hinner hnc ih res hres hok
    obtain ⟨fh, fd⟩ := flags
    rw [commitC.eq_1, hinner] at hres
    cases fh with
    | some h0 =>
      cases fd with
      | false => exact (hnc h0 rfl rfl).elim
      | true => simp at hres
    | none => simp at hres
  · -- short node over a full child, child commit succeeds
    intro path ns k flags ch2 f2 childV ns1 hinner hnc ih res hres hok
    have hns1 : deletesOk cap ns1 := ih (childV, ns1) hinner hok
    obtain ⟨fh, fd⟩ := flags
    rw [commitC.eq_1, hinner] at hres
    cases fh with
    | some h0 =>
      cases fd with
      | false => exact (hnc h0 rfl rfl).elim
      | true =>
        simp at hres
        subst hres
        exact deletesOk_nodeCommit cap cl path _ ns1 hns1
    | none =>
      simp at hres
      subst hres
      exact deletesOk_nodeCommit cap cl path _ ns1 hns1
  · -- short node over a non-full child
    intro path ns k v flags hnc hnotfull res hres hok
    obtain ⟨fh, fd⟩ := flags
    rw [commitC.eq_2 cap cl path ns k v _ hnotfull] at hres
    cases fh with
    | some h0 =>
      cases fd with
      | false => exact (hnc h0 rfl rfl).elim
      | true =>
        simp at hres
        subst hres
        exact deletesOk_nodeCommit cap cl path _ ns hok
    | none =>
      simp at hres
      subst hres
      exact deletesOk_nodeCommit cap cl path _ ns hok
  · -- full node with a clean cached hash
    intro path ns ch flags h hdirty hhash res hres hok
    rw [commitC.eq_3, hhash, hdirty] at hres
    simp at hres
    subst hres
    exact hok
  · -- full node, child walk fails
    intro path ns ch flags hkids hnc ih res hres hok
    obtain ⟨fh, fd⟩ := flags
    rw [commitC.eq_3, hkids] at hres
    cases fh with
    | some h0 =>
      cases fd with
      | false => exact (hnc h0 rfl rfl).elim
      | true => simp at hres
    | none => simp at hres
  · -- full node, child walk succeeds
    intro path ns ch flags kids ns1 hkids hnc ih res hres hok
    have hns1 : deletesOk cap ns1 := ih (kids, ns1) hkids hok
    obtain ⟨fh, fd⟩ := flags
    rw [commitC.eq_3, hkids] at hres
    cases fh with
    | some h0 =>
      cases fd with
      | false => exact (hnc h0 rfl rfl).elim
      | true =>
        simp at hres
        subst hres
        exact deletesOk_nodeCommit cap cl path _ ns1 hns1
    | none =>
      simp at hres
      subst hres
      exact deletesOk_nodeCommit cap cl path _ ns1 hns1
  · -- hash node: passes through
    intro path ns h res hres hok
    rw [commitC.eq_4] at hres
    simp at hres
    subst hres
    exact hok
  · -- value node: the Go panic, no result
    intro path ns v res hres hok
    rw [commitC.eq_5] at hres
    simp at hres
  · -- child walk: empty list
    intro path i ns res hres hok
    rw [commitKidsC.eq_1] at hres
    simp at hres
    subst hres
    exact hok
  · -- child walk: nil child, rest fails
    intro path i ns rest hrest ih res hres hok
    rw [commitKidsC.eq_2, hrest] at hres
    simp at hres
  · -- child walk: nil child, rest succeeds
    intro path i ns rest kids ns1 hrest ih res hres hok
    rw [commitKidsC.eq_2, hrest] at hres
    simp at hres
    subst hres
    exact ih (kids, ns1) hrest hok
  · -- child walk: hash child, rest fails
    intro path i ns h rest hrest ih res hres hok
    rw [commitKidsC.eq_3, hrest] at hres
    simp at hres
  · -- child walk: hash child, rest succeeds
    intro path i ns h rest kids ns1 hrest ih res hres hok
    rw [commitKidsC.eq_3, hrest] at hres
    simp at hres
    subst hres
    exact ih (kids, ns1) hrest hok
  · -- child walk: structural child, its commit fails
    intro path i ns c rest hnothash hc ih res hres hok
    rw [commitKidsC.eq_4 cap cl path i ns c rest hnothash, hc] at hres
    simp at hres
  · -- child walk: structural child committed, rest fails
    intro path i ns c rest hnothash childV ns1 hc hrest ih1 ih2 res hres hok
    rw [commitKidsC.eq_4 cap cl path i ns c rest hnothash, hc] at hres
    dsimp only at hres
    rw [hrest] at hres
    simp at hres
  · -- child walk: structural child committed, rest succeeds
    intro path i ns c rest hnothash childV ns1 hc kids ns2 hrest ih1 ih2 res hres hok
    have hns1 : deletesOk cap ns1 := ih1 (childV, ns1) hc hok
    have hns2 : deletesOk cap ns2 := ih2 (kids, ns2) hrest hns1
    rw [commitKidsC.eq_4 cap cl path i ns c rest hnothash, hc] at hres
    dsimp only at hres
    rw [hrest] at hres
    simp at hres
    subst hres
    exact hns2

theorem foldDel_stable (cap : TrieCapture) (l : List Nibs) (ns : NodeSetS) (p : Nibs)
    (h : assocGet ns.deletes p = some (cap.getOldv p)) :
    assocGet ((l.foldl (fun acc path =>
      if (cap.getOldv path).length = 0 then acc
      else acc.markDeleted path (cap.getOldv path)) ns).deletes) p =
      some (cap.getOldv p) := by
  induction l generalizing ns with
  | nil => exact h
  | cons q rest ih =>
    rw [List.foldl_cons]
    apply ih
    by_cases hq : (cap.getOldv q).length = 0
    · simpa [hq] using h
    · rw [if_neg hq]
      by_cases hpq : p = q
      · subst hpq
        exact assocGet_set_self _ _ _
      · rw [show (ns.markDeleted q (cap.getOldv q)).deletes
            = assocSet ns.deletes q (cap.getOldv q) from rfl,
          assocGet_set_other _ _ _ _ hpq]
        exact h

theorem foldDel_mem (cap : TrieCapture) (l : List Nibs) (ns : NodeSetS) (p : Nibs)
    (hp : p ∈ l) (hv : ¬ cap.getOldv p = []) :
    assocGet ((l.foldl (fun acc path =>
      if (cap.getOldv path).length = 0 then acc
      else acc.markDeleted path (cap.getOldv path)) ns).deletes) p =
      some (cap.getOldv p) := by
  induction l generalizing ns with
  | nil => cases hp
  | cons q rest ih =>
    rw [List.foldl_cons]
    rcases List.mem_cons.mp hp with hq | hq
    · subst hq
      apply foldDel_stable
      rw [if_neg (fun hc => hv (List.length_eq_zero.mp hc))]
      exact assocGet_set_self _ _ _
    · exact ih _ hq

theorem foldDel_ok (cap : TrieCapture) (l : List Nibs) (ns : NodeSetS)
    (h : deletesOk cap ns) :
    deletesOk cap (l.foldl (fun acc path =>
      if (cap.getOldv path).length = 0 then acc
      else acc.markDeleted path (cap.getOldv path)) ns) := by
  induction l generalizing ns with
  | nil => exact h
  | cons q rest ih =>
    rw [List.foldl_cons]
    apply ih
    by_cases hq : (cap.getOldv q).length = 0
    · simpa [hq] using h
    · rw [if_neg hq]
      exact deletesOk_markDeleted cap ns q h (fun hc => hq (by rw [hc]; rfl))

/-- C2: after mutations and a commit, for every path the tracker recorded as
deleted whose previously-loaded on-disk blob is non-empty, the `NodeSet`
returned by the committer contains a delete entry for that path (holding
that blob); a path with no recorded on-disk blob never gets a delete
entry. -/
theorem c2_committer_deletes (cap : TrieCapture) (cl : Bool) (n : Node) (owner : Hash)
    (hb : Hash) (ns' : NodeSetS)
    (hc : committerCommit cap cl n (NewNodeSet owner) = some (hb, ns')) :
    (∀ p, p ∈ cap.deleteList → ¬ cap.getOldv p = [] →
      assocGet ns'.deletes p = some (cap.getOldv p)) ∧
    (∀ p, cap.getOldv p = [] → assocGet ns'.deletes p = none) := by
  unfold committerCommit at hc
  cases hcc : commitC cap cl [] n (NewNodeSet owner) with
  | none => rw [hcc] at hc; cases hc
  | some pr =>
    rw [hcc] at hc
    obtain ⟨h0, ns1⟩ := pr
    have hok1 : deletesOk cap ns1 :=
      (deletesOk_commit cap cl).1 [] n (NewNodeSet owner) (h0, ns1) hcc
        (fun p b hpb => by cases hpb)
    cases h0 with
    | hash hb2 =>
      dsimp only at hc
      injection hc with h3
      injection h3 with h4 h5
      subst h4
      subst h5
      constructor
      · intro p hp hv
        exact foldDel_mem cap cap.deleteList ns1 p hp hv
      · intro p hv
        have hok2 : deletesOk cap (cap.deleteList.foldl (fun acc path =>
            if (cap.getOldv path).length = 0 then acc
            else acc.markDeleted path (cap.getOldv path)) ns1) :=
          foldDel_ok cap cap.deleteList ns1 hok1
        cases hg : assocGet ((cap.deleteList.foldl (fun acc path =>
            if (cap.getOldv path).length = 0 then acc
            else acc.markDeleted path (cap.getOldv path)) ns1)).deletes p with
        | none => rfl
        | some b =>
          have hbb := hok2 p b hg
          rw [hv] at hbb
          exact absurd hbb.1 hbb.2
    | full ch f => exact Option.noConfusion hc
    | short k v f => exact Option.noConfusion hc
    | value v => exact Option.noConfusion hc

/-- Witness for C2 at a concrete tracker and node: the deleted path gets a
delete entry carrying its original blob. -/
theorem c2_committer_deletes_witness :
    (∀ p, p ∈ capC2.deleteList → ¬ capC2.getOldv p = [] →
      assocGet nsC2.deletes p = some (capC2.getOldv p)) ∧
    (∀ p, capC2.getOldv p = [] → assocGet nsC2.deletes p = none) :=
  c2_committer_deletes capC2 false nC2 zeroHash sampleHash nsC2
    (by simp [committerCommit, commitC, NewNodeSet, capC2, nC2, nsC2,
      TrieCapture.deleteList, TrieCapture.getOldv, lookupP, NodeSetS.markDeleted,
      assocSet])

/-! ### C10 -/

theorem updInv_built (s : NodeSetS) (h : NodeSetBuilt s) : updInv s := by
  induction h with
  | new owner => intro p hp; cases hp
  | upd p m o hb ih =>
    intro q hq
    rcases List.mem_append.mp hq with h1 | h1
    · by_cases hqp : q = p
      · subst hqp
        rw [show (NodeSetS.markUpdated _ q m o).updNodes
            = assocSet _ q (m, o) from rfl, assocGet_set_self]
        rfl
      · rw [show (NodeSetS.markUpdated _ p m o).updNodes
            = assocSet _ p (m, o) from rfl, assocGet_set_other _ _ _ _ hqp]
        exact ih q h1
    · have hqp : q = p := by simpa using h1
      subst hqp
      rw [show (NodeSetS.markUpdated _ q m o).updNodes
          = assocSet _ q (m, o) from rfl, assocGet_set_self]
      rfl
  | del p o hb ih => exact ih
  | leaf b hh hb ih => exact ih

theorem insertLoop_ok (owner : Hash) (s : NodeSetS) :
    ∀ (order : List Nibs) (db : TrieDBS),
      (∀ p, p ∈ order → (assocGet s.updNodes p).isSome) →
      ∃ db1, insertLoop db owner s order = .ok db1 := by
  intro order
  induction order with
  | nil => exact fun db _ => ⟨db, rfl⟩
  | cons p rest ih =>
    intro db hall
    have hp := hall p (List.mem_cons_self p rest)
    rw [insertLoop]
    cases hg : assocGet s.updNodes p with
    | none => rw [hg] at hp; cases hp
    | some e =>
      exact ih (db.insertD e.1.hash e.1.node) (fun q hq => hall q (List.mem_cons_of_mem p hq))

theorem ownersLoop_ok (m : MergedNodeSetS)
    (hm : ∀ e, e ∈ m.sets → updInv e.2) :
    ∀ (owners : List Hash) (db : TrieDBS),
      ∃ db1, ownersLoop db m owners = .ok db1 := by
  intro owners
  induction owners with
  | nil => exact fun db => ⟨db, rfl⟩
  | cons o rest ih =>
    intro db
    rw [ownersLoop]
    cases hf : m.sets.find? (fun e => e.1 = o) with
    | none => exact ih db
    | some e =>
      obtain ⟨o2, s⟩ := e
      have hmem := List.mem_of_find?_eq_some hf
      have hinv : updInv s := hm (o2, s) hmem
      obtain ⟨db1, hdb1⟩ := insertLoop_ok o s s.updOrder db (fun p hp => hinv p hp)
      dsimp only
      rw [hdb1]
      exact ih db1

theorem leavesLoop_err (dec : Bytes → Option Hash) :
    ∀ (l : List (Bytes × Hash)) (db : TrieDBS) (e : UpdateErr),
      leavesLoop dec db l = .error e → e = .accountDecode := by
  intro l
  induction l with
  | nil => intro db e he; cases he
  | cons x rest ih =>
    intro db e he
    obtain ⟨blob, parent⟩ := x
    rw [leavesLoop] at he
    cases hd : dec blob with
    | none => rw [hd] at he; cases he; rfl
    | some root => rw [hd] at he; exact ih _ e he

/-- C10: a `NodeSet` built through `NewNodeSet`/`markUpdated` keeps every
path of `updates.order` present in `updates.nodes`, so `TrieDB.Update`'s
"missing node" branch is unreachable for merged sets built that way. -/
theorem c10_update_missing_unreachable
    (dec : Bytes → Option Hash) (db : TrieDBS) (m : MergedNodeSetS)
    (hm : ∀ e, e ∈ m.sets → NodeSetBuilt e.2) :
    ∀ owner path, dbUpdate dec db m ≠ .error (.missingNode owner path) := by
  intro owner path hcontra
  have hm2 : ∀ e, e ∈ m.sets → updInv e.2 := fun e he => updInv_built e.2 (hm e he)
  unfold dbUpdate at hcontra
  dsimp only at hcontra
  obtain ⟨db1, hdb1⟩ := ownersLoop_ok m hm2
    (((m.sets.filter (fun e => ¬ e.1 = zeroHash)).map (·.1)) ++
      (if (m.sets.find? (fun e => e.1 = zeroHash)).isSome then [zeroHash] else [])) db
  rw [hdb1] at hcontra
  cases hf : m.sets.find? (fun e => e.1 = zeroHash) with
  | none => rw [hf] at hcontra; cases hcontra
  | some e =>
    obtain ⟨o2, s⟩ := e
    rw [hf] at hcontra
    dsimp only at hcontra
    cases hleaves : leavesLoop dec db1 s.leaves with
    | ok db2 => rw [hleaves] at hcontra; cases hcontra
    | error e2 =>
      rw [hleaves] at hcontra
      injection hcontra with h3
      have := leavesLoop_err dec s.leaves db1 e2 hleaves
      rw [this] at h3
      cases h3

/-- Witness for C10: a merged set holding one freshly built empty node set
never triggers the missing-node error. -/
theorem c10_update_missing_unreachable_witness :
    dbUpdate (fun _ => none) (NewTrieDBS []) ⟨[(zeroHash, NewNodeSet zeroHash)]⟩ ≠
      .error (.missingNode zeroHash []) :=
  c10_update_missing_unreachable (fun _ => none) (NewTrieDBS [])
    ⟨[(zeroHash, NewNodeSet zeroHash)]⟩
    (fun e he => by
      have : e = (zeroHash, NewNodeSet zeroHash) := by simpa using he
      rw [this]
      exact NodeSetBuilt.new zeroHash)
    zeroHash []



/-! ### C1 and C9 - insert correctness over materialized tries -/
/-! ### Key and prefix lemmas -/

theorem leafKey_iff (k : Nibs) :
    leafKey k = true ↔ ∃ s, k = s ++ [16] ∧ ∀ x ∈ s, x < 16 := by
  unfold leafKey
  simp only [Bool.and_eq_true, decide_eq_true_eq, List.all_eq_true, decide_eq_true_eq]
  constructor
  · rintro ⟨h1, h2⟩
    refine ⟨k.dropLast, ?_, h2⟩
    rw [List.dropLast_append_getLast? 16 h1]
  · rintro ⟨s, rfl, hs⟩
    refine ⟨?_, ?_⟩
    · simp
    · intro x hx
      rw [List.dropLast_concat] at hx
      exact hs x hx

theorem leafKey_ne_nil {k : Nibs} (h : leafKey k = true) : k ≠ [] := by
  obtain ⟨s, rfl, _⟩ := (leafKey_iff k).mp h
  simp

theorem prefixLen_le_left : ∀ (a b : Nibs), prefixLen a b ≤ a.length := by
  intro a
  induction a with
  | nil => intro b; cases b <;> simp [prefixLen]
  | cons x xs ih =>
    intro b
    cases b with
    | nil => simp [prefixLen]
    | cons y ys =>
      rw [prefixLen]
      by_cases h : x = y
      · simp only [h, if_true, List.length_cons]
        exact Nat.succ_le_succ (ih ys)
      · simp [h]

theorem prefixLen_le_right : ∀ (a b : Nibs), prefixLen a b ≤ b.length := by
  intro a
  induction a with
  | nil => intro b; cases b <;> simp [prefixLen]
  | cons x xs ih =>
    intro b
    cases b with
    | nil => simp [prefixLen]
    | cons y ys =>
      rw [prefixLen]
      by_cases h : x = y
      · simp only [h, if_true, List.length_cons]
        exact Nat.succ_le_succ (ih ys)
      · simp [h]

theorem prefixLen_take : ∀ (a b : Nibs), a.take (prefixLen a b) = b.take (prefixLen a b) := by
  intro a
  induction a with
  | nil => intro b; cases b <;> simp [prefixLen]
  | cons x xs ih =>
    intro b
    cases b with
    | nil => simp [prefixLen]
    | cons y ys =>
      rw [prefixLen]
      by_cases h : x = y
      · simp only [h, if_true, List.take_succ_cons]
        rw [ih ys]
      · simp [h]

theorem prefixLen_get_ne : ∀ (a b : Nibs), prefixLen a b < a.length → prefixLen a b < b.length →
    a.get? (prefixLen a b) ≠ b.get? (prefixLen a b) := by
  intro a
  induction a with
  | nil => intro b h1; simp at h1
  | cons x xs ih =>
    intro b h1 h2
    cases b with
    | nil => simp at h2
    | cons y ys =>
      rw [prefixLen] at h1 h2 ⊢
      by_cases h : x = y
      · simp only [h, if_true] at h1 h2 ⊢
        simp only [List.get?_cons_succ]
        exact ih ys (by simpa using h1) (by simpa using h2)
      · simp [h]

theorem prefixLen_full_take {a b : Nibs} (h : prefixLen a b = b.length) :
    a.take b.length = b := by
  have := prefixLen_take a b
  rw [h] at this
  rw [this, List.take_length]

theorem leafKey_drop {k : Nibs} (m : Nat) (h : leafKey k = true) (hm : m < k.length) :
    leafKey (k.drop m) = true := by
  obtain ⟨s, rfl, hs⟩ := (leafKey_iff k).mp h
  rcases Nat.lt_or_ge m s.length with hlt | hge
  · rw [List.drop_append_of_le_length (Nat.le_of_lt hlt)]
    exact (leafKey_iff _).mpr ⟨s.drop m, rfl, fun x hx => hs x (List.mem_of_mem_drop hx)⟩
  · have : m = s.length := by
      simp only [List.length_append, List.length_singleton] at hm
      omega
    subst this
    rw [List.drop_append_of_le_length (Nat.le_refl _), List.drop_length, List.nil_append]
    exact (leafKey_iff _).mpr ⟨[], rfl, by simp⟩

theorem leafKey_get_lt {k : Nibs} (i : Nat) (h : leafKey k = true) (hi : i + 1 < k.length) :
    ∃ x, k.get? i = some x ∧ x < 16 := by
  obtain ⟨s, rfl, hs⟩ := (leafKey_iff k).mp h
  have hilt : i < s.length := by
    simp only [List.length_append, List.length_singleton] at hi
    omega
  rw [List.get?_append hilt]
  cases hg : s.get? i with
  | none => exact absurd (List.get?_eq_none.mp hg) (by omega)
  | some x => exact ⟨x, rfl, hs x (List.get?_mem hg)⟩

theorem leafKey_get_last {k : Nibs} (h : leafKey k = true) :
    k.get? (k.length - 1) = some 16 := by
  obtain ⟨s, rfl, hs⟩ := (leafKey_iff k).mp h
  have : (s ++ [16]).length - 1 = s.length := by simp
  rw [this, List.get?_append_right (Nat.le_refl _)]
  simp

theorem leafKey_get_le {k : Nibs} (i : Nat) (x : Nat) (h : leafKey k = true)
    (hg : k.get? i = some x) : x ≤ 16 := by
  obtain ⟨s, rfl, hs⟩ := (leafKey_iff k).mp h
  rcases Nat.lt_or_ge i s.length with hlt | hge
  · rw [List.get?_append hlt] at hg
    exact Nat.le_of_lt (hs x (List.get?_mem hg))
  · rw [List.get?_append_right hge] at hg
    cases hig : i - s.length with
    | zero => rw [hig] at hg; cases hg; exact Nat.le_refl 16
    | succ j => rw [hig] at hg; cases hg

theorem leafKey_prefix_eq {a b : Nibs} (ha : leafKey a = true) (hb : leafKey b = true)
    (hp : b.take a.length = a) : b = a := by
  obtain ⟨s, rfl, hs⟩ := (leafKey_iff a).mp ha
  obtain ⟨t, rfl, ht⟩ := (leafKey_iff b).mp hb
  by_cases hl : (s ++ [16]).length ≤ t.length
  · exfalso
    have h16 : (16 : Nat) ∈ t := by
      have hlast : (s ++ [16]).get? (s.length) = some 16 := by
        rw [List.get?_append_right (Nat.le_refl _)]
        simp
      rw [← hp] at hlast
      rw [List.get?_take (by simp)] at hlast
      have hsl : s.length < t.length := by
        simp only [List.length_append, List.length_singleton] at hl
        omega
      rw [List.get?_append hsl] at hlast
      exact List.get?_mem hlast
    exact absurd (ht 16 h16) (by omega)
  · have hlen : t.length + 1 ≤ s.length + 1 := by
      simp only [List.length_append, List.length_singleton] at hl
      omega
    have hgoal := hp
    have hle : (t ++ [16]).length ≤ (s ++ [16]).length := by simp; omega
    rw [List.take_of_length_le hle] at hgoal
    exact hgoal

/-! ### Well-formedness extraction -/

theorem wf_short_value {k : Nibs} {v0 : Bytes} {f : NodeFlag}
    (h : wfN (.short k (.value v0) f) = true) : leafKey k = true := by
  rw [wfN] at h
  exact h

theorem wf_short_cases {k : Nibs} {v : Node} {f : NodeFlag}
    (h : wfN (.short k v f) = true) :
    (∃ v0, v = .value v0 ∧ leafKey k = true) ∨
    ((∀ v0, ¬ v = .value v0) ∧ extKey k = true ∧ wfN v = true) := by
  cases v with
  | value v0 =>
    rw [wfN] at h
    exact Or.inl ⟨v0, rfl, h⟩
  | short k2 v2 f2 =>
    rw [wfN] at h
    · simp only [Bool.and_eq_true] at h
      exact Or.inr ⟨fun v0 hc => Node.noConfusion hc, h.1, h.2⟩
    · exact fun v hc => Node.noConfusion hc
  | full ch2 f2 =>
    rw [wfN] at h
    · simp only [Bool.and_eq_true] at h
      exact Or.inr ⟨fun v0 hc => Node.noConfusion hc, h.1, h.2⟩
    · exact fun v hc => Node.noConfusion hc
  | hash h2 =>
    rw [wfN] at h
    · simp only [Bool.and_eq_true] at h
      exact Or.inr ⟨fun v0 hc => Node.noConfusion hc, h.1, h.2⟩
    · exact fun v hc => Node.noConfusion hc

theorem extKey_lt {k : Nibs} (h : extKey k = true) : ∀ x ∈ k, x < 16 := by
  unfold extKey at h
  simp only [Bool.and_eq_true, List.all_eq_true, decide_eq_true_eq] at h
  exact fun x hx => h.2 x hx

theorem extKey_ne_nil {k : Nibs} (h : extKey k = true) : k ≠ [] := by
  unfold extKey at h
  simp only [Bool.and_eq_true] at h
  simpa using h.1

theorem wfSlots_get : ∀ (l : List (Option Node)) (i : Nat), wfSlots l i = true →
    ∀ j c, l.get? j = some (some c) →
      (i + j < 16 → wfN c = true) ∧ (¬ i + j < 16 → ∃ vv, c = .value vv) := by
  intro l
  induction l with
  | nil => intro i h j c hc; cases j <;> cases hc
  | cons a rest ih =>
    intro i h j c hc
    rw [wfSlots.eq_def] at h
    dsimp only at h
    simp only [Bool.and_eq_true] at h
    cases j with
    | zero =>
      rw [List.get?_cons_zero] at hc
      injection hc with hc2
      subst hc2
      constructor
      · intro hilt
        have := h.1
        rw [if_pos (by omega)] at this
        exact this
      · intro hige
        have := h.1
        rw [if_neg (by omega)] at this
        cases c with
        | value vv => exact ⟨vv, rfl⟩
        | full c1 c2 => cases this
        | short c1 c2 c3 => cases this
        | hash c1 => cases this
    | succ j2 =>
      rw [List.get?_cons_succ] at hc
      have := ih (i + 1) h.2 j2 c hc
      constructor
      · intro hlt
        exact this.1 (by omega)
      · intro hge
        exact this.2 (by omega)

theorem wf_full_elim {ch : List (Option Node)} {f : NodeFlag}
    (h : wfN (.full ch f) = true) :
    ch.length = 17 ∧
    (∀ j c, j < 16 → ch.get? j = some (some c) → wfN c = true) ∧
    (∀ c, ch.get? 16 = some (some c) → ∃ vv, c = .value vv) := by
  rw [wfN] at h
  simp only [Bool.and_eq_true, decide_eq_true_eq] at h
  refine ⟨h.1, ?_, ?_⟩
  · intro j c hj hc
    exact (wfSlots_get ch 0 h.2 j c hc).1 (by omega)
  · intro c hc
    obtain ⟨vv, hvv⟩ := (wfSlots_get ch 0 h.2 16 c hc).2 (by omega)
    exact ⟨vv, hvv⟩

theorem wfSlots_intro : ∀ (l : List (Option Node)) (i : Nat),
    (∀ j c, l.get? j = some (some c) →
      (i + j < 16 → wfN c = true) ∧ (¬ i + j < 16 → ∃ vv, c = .value vv)) →
    wfSlots l i = true := by
  intro l
  induction l with
  | nil => intro i h; rfl
  | cons a rest ih =>
    intro i h
    rw [wfSlots.eq_def]
    dsimp only
    simp only [Bool.and_eq_true]
    constructor
    · cases a with
      | none => split <;> rfl
      | some c =>
        have := h 0 c rfl
        by_cases hi : i < 16
        · rw [if_pos hi]
          exact this.1 (by omega)
        · rw [if_neg hi]
          obtain ⟨vv, hvv⟩ := this.2 (by omega)
          subst hvv
          rfl
    · apply ih
      intro j c hc
      have := h (j + 1) c (by rw [List.get?_cons_succ]; exact hc)
      constructor
      · intro hlt
        exact this.1 (by omega)
      · intro hge
        exact this.2 (by omega)

theorem wf_full_intro {ch : List (Option Node)} {f : NodeFlag}
    (hlen : ch.length = 17)
    (h1 : ∀ j c, j < 16 → ch.get? j = some (some c) → wfN c = true)
    (h2 : ∀ c, ch.get? 16 = some (some c) → ∃ vv, c = .value vv) :
    wfN (.full ch f) = true := by
  rw [wfN]
  simp only [Bool.and_eq_true, decide_eq_true_eq]
  refine ⟨hlen, wfSlots_intro ch 0 ?_⟩
  intro j c hc
  constructor
  · intro hlt
    exact h1 j c (by omega) hc
  · intro hge
    have hj : j < 17 := by
      by_contra hcon
      rw [List.get?_eq_none.mpr (by omega)] at hc
      cases hc
    have : j = 16 := by omega
    subst this
    exact h2 c hc

/-! ### setChild and list access lemmas -/

theorem setChild_get_self (ch : List (Option Node)) (i : Nat) (c : Option Node)
    (hi : i < ch.length) : (setChild ch i c).get? i = some c := by
  unfold setChild
  rw [List.get?_eq_getElem?, List.getElem?_set_self (by omega)]

theorem setChild_get_other (ch : List (Option Node)) (i j : Nat) (c : Option Node)
    (hij : ¬ j = i) : (setChild ch i c).get? j = ch.get? j := by
  unfold setChild
  rw [List.get?_eq_getElem?, List.getElem?_set_ne (fun hc => hij hc.symm), ← List.get?_eq_getElem?]

theorem setChild_length (ch : List (Option Node)) (i : Nat) (c : Option Node) :
    (setChild ch i c).length = ch.length := by
  unfold setChild
  exact List.length_set ch i c

theorem emptyChildren_get (j : Nat) (hj : j < 17) : emptyChildren.get? j = some none := by
  unfold emptyChildren
  rw [List.get?_eq_getElem?, List.getElem?_replicate]
  simp [hj]

theorem take_succ_eq {a b : Nibs} {j : Nat} (h : a.take j = b.take j)
    (hg : a.get? j = b.get? j) : a.take (j + 1) = b.take (j + 1) := by
  rw [List.get?_eq_getElem?, List.get?_eq_getElem?] at hg
  rw [List.take_succ, List.take_succ, h, hg]

theorem prefix_split {a b : Nibs} {j : Nat} (hja : j ≤ a.length) (hjb : j ≤ b.length)
    (h : a.take j = b.take j) :
    (a.take b.length = b) ↔ ((a.drop j).take (b.length - j) = b.drop j) := by
  constructor
  · intro he
    have h2 : a.take j ++ (a.drop j).take (b.length - j) = b := by
      rw [← List.take_add, show j + (b.length - j) = b.length by omega]
      exact he
    have h4 := congrArg (List.drop j) h2
    rw [List.drop_append_of_le_length (by simp; omega),
      List.drop_take, Nat.sub_self, List.take_zero] at h4
    simpa using h4
  · intro he
    have h2 : a.take (j + (b.length - j)) = b.take j ++ b.drop j := by
      rw [List.take_add, h, he]
    rwa [show j + (b.length - j) = b.length by omega, List.take_append_drop] at h2

theorem tryGetV_short (k : Nibs) (val : Node) (f : NodeFlag) (key : Nibs) :
    tryGetV (some (.short k val f)) key =
      if key.take k.length ≠ k then some none
      else tryGetV (some val) (key.drop k.length) := by
  rw [tryGetV]

theorem tryGetV_full (ch : List (Option Node)) (f : NodeFlag) (i : Nat) (rest : Nibs)
    (c : Option Node) (hc : ch.get? i = some c) :
    tryGetV (some (.full ch f)) (i :: rest) = tryGetV c rest := by
  rw [tryGetV]
  split
  · rename_i heq; rw [hc] at heq; cases heq
  · rename_i c2 heq; rw [hc] at heq; injection heq with h2; rw [h2]

theorem tryGetV_value (w : Bytes) (key : Nibs) :
    tryGetV (some (.value w)) key = some (some w) := by
  rw [tryGetV]

theorem tryGetV_nil_full (ch : List (Option Node)) (f : NodeFlag) :
    tryGetV (some (.full ch f)) [] = none := by
  rw [tryGetV]

theorem insertN_none (pre k : Nibs) (val : Node) (cap : TrieCapture) :
    insertN none pre k val cap =
      some (true, if k = [] then val else .short k val newFlag,
            if k = [] then cap else cap.onInsert pre) := by
  by_cases hk : k = []
  · subst hk
    rw [insertN]
    simp
  · rw [insertN, if_neg hk, if_neg hk, if_neg hk]

theorem insertN_nil_value (w : Bytes) (pre : Nibs) (v : Node) (cap : TrieCapture) :
    insertN (some (.value w)) pre [] v cap =
      match v with
      | .value v2 => some (decide (¬ w = v2), .value v2, cap)
      | _ => none := by
  cases v <;> simp [insertN]

theorem extKey_take_of_leaf {k : Nibs} (m : Nat) (h : leafKey k = true)
    (hm : 0 < m) (hlt : m < k.length) : extKey (k.take m) = true := by
  obtain ⟨s, rfl, hs⟩ := (leafKey_iff k).mp h
  have hms : m ≤ s.length := by
    simp only [List.length_append, List.length_singleton] at hlt
    omega
  rw [List.take_append_of_le_length hms]
  unfold extKey
  simp only [Bool.and_eq_true, List.all_eq_true, decide_eq_true_eq]
  constructor
  · cases hsm : List.take m s with
    | nil =>
      exfalso
      have hln := congrArg List.length hsm
      rw [List.length_take] at hln
      simp only [List.length_nil] at hln
      omega
    | cons a t => rfl
  · intro x hx
    exact hs x (List.mem_of_mem_take hx)

theorem leafKey_sixteen_last {k : Nibs} {m : Nat} (h : leafKey k = true)
    (hg : k.get? m = some 16) : m = k.length - 1 := by
  have hm : m < k.length := by
    by_contra hc
    rw [List.get?_eq_none.mpr (by omega)] at hg
    cases hg
  by_contra hc
  obtain ⟨x, hx, hxlt⟩ := leafKey_get_lt m h (by omega)
  rw [hg] at hx
  injection hx with hx2
  omega

theorem drop_eq_get_cons {l : Nibs} {m : Nat} {x : Nat} (h : l.get? m = some x) :
    l.drop m = x :: l.drop (m + 1) := by
  have hm : m < l.length := by
    by_contra hc
    rw [List.get?_eq_none.mpr (by omega)] at h
    cases h
  rw [List.get?_eq_getElem?, List.getElem?_eq_getElem hm] at h
  injection h with h2
  rw [List.drop_eq_getElem_cons hm, h2]

theorem tryGetV_none (key : Nibs) : tryGetV none key = some none := by
  rw [tryGetV]


theorem wf_short_intro_leaf {k : Nibs} {w : Bytes} {f : NodeFlag} (hk : leafKey k = true) :
    wfN (.short k (.value w) f) = true := by
  rw [wfN]
  exact hk

theorem wf_short_intro_ext {k : Nibs} {n : Node} {f : NodeFlag}
    (hk : extKey k = true) (hn : wfN n = true) : wfN (.short k n f) = true := by
  cases n with
  | value w => rw [wfN] at hn; cases hn
  | short k2 v2 f2 =>
    rw [wfN]
    · rw [hk, hn]; rfl
    · exact fun v hc => Node.noConfusion hc
  | full ch2 f2 =>
    rw [wfN]
    · rw [hk, hn]; rfl
    · exact fun v hc => Node.noConfusion hc
  | hash h2 =>
    rw [wfN]
    · rw [hk, hn]; rfl
    · exact fun v hc => Node.noConfusion hc

theorem take_ne_of_get_ne {a b : Nibs} {m : Nat} (hm : m < b.length)
    (hg : ¬ a.get? m = b.get? m) : ¬ a.take b.length = b := by
  intro he
  apply hg
  have := congrArg (fun l => List.get? l m) he
  dsimp only at this
  rw [List.get?_take hm] at this
  rw [this]

theorem take_prefixLen_full : ∀ (a b : Nibs), a.take b.length = b → prefixLen a b = b.length := by
  intro a
  induction a with
  | nil =>
    intro b h
    rw [List.take_nil] at h
    subst h
    rfl
  | cons x xs ih =>
    intro b h
    cases b with
    | nil => rfl
    | cons y ys =>
      rw [List.length_cons, List.take_succ_cons] at h
      injection h with h1 h2
      rw [prefixLen, if_pos h1, ih ys h2, List.length_cons]

theorem tryGetV_stub (kp : Nibs) (val : Node) (f : NodeFlag) (k2 : Nibs) :
    tryGetV (some (if kp = [] then val else .short kp val f)) k2 =
      if k2.take kp.length = kp then tryGetV (some val) (k2.drop kp.length)
      else some none := by
  by_cases hk : kp = []
  · subst hk
    rw [if_pos rfl]
    simp
  · rw [if_neg hk, tryGetV_short]
    by_cases hc : k2.take kp.length = kp
    · rw [if_neg (by simpa using hc), if_pos hc]
    · rw [if_pos (by simpa using hc), if_neg hc]

theorem extKey_intro {k : Nibs} (h1 : ¬ k = []) (h2 : ∀ x ∈ k, x < 16) :
    extKey k = true := by
  unfold extKey
  simp only [Bool.and_eq_true, List.all_eq_true, decide_eq_true_eq]
  constructor
  · cases k with
    | nil => exact absurd rfl h1
    | cons a t => rfl
  · exact h2

theorem drop_nil_iff (l : Nibs) (n : Nat) : l.drop n = [] ↔ l.length ≤ n := by
  constructor
  · intro h
    have := congrArg List.length h
    rw [List.length_drop] at this
    simp only [List.length_nil] at this
    omega
  · exact List.drop_eq_nil_of_le


theorem insertN_short_eq (nk : Nibs) (nv : Node) (nf : NodeFlag) (pre key : Nibs)
    (value : Node) (cap : TrieCapture) (hk : ¬ key = []) :
    insertN (some (.short nk nv nf)) pre key value cap =
      (if prefixLen key nk = nk.length then
         match insertN (some nv) (pre ++ key.take (prefixLen key nk))
             (key.drop (prefixLen key nk)) value cap with
         | none => none
         | some (dirty, nn, cap') =>
           if !dirty then some (false, .short nk nv nf, cap')
           else some (true, .short nk nn newFlag, cap')
       else
         match insertN none (pre ++ nk.take (prefixLen key nk + 1))
             (nk.drop (prefixLen key nk + 1)) nv cap with
         | none => none
         | some (_, c1, cap1) =>
           match insertN none (pre ++ key.take (prefixLen key nk + 1))
               (key.drop (prefixLen key nk + 1)) value cap1 with
           | none => none
           | some (_, c2, cap2) =>
             match nk.get? (prefixLen key nk), key.get? (prefixLen key nk) with
             | some i1, some i2 =>
               if prefixLen key nk = 0 then
                 some (true, Node.full (setChild (setChild emptyChildren i1 (some c1))
                   i2 (some c2)) newFlag, cap2)
               else
                 some (true, .short (key.take (prefixLen key nk))
                       (Node.full (setChild (setChild emptyChildren i1 (some c1))
                         i2 (some c2)) newFlag) newFlag,
                       cap2.onInsert (pre ++ key.take (prefixLen key nk)))
             | _, _ => none) := by
  rw [insertN, if_neg hk]

theorem insertN_full_eq (ch : List (Option Node)) (nf : NodeFlag) (pre : Nibs)
    (i : Nat) (rest : Nibs) (value : Node) (cap : TrieCapture) :
    insertN (some (.full ch nf)) pre (i :: rest) value cap =
      (match h2 : ch.get? i with
       | none => none
       | some child =>
         match insertN child (pre ++ [i]) rest value cap with
         | none => none
         | some (dirty, nn, cap') =>
           if !dirty then some (false, .full ch nf, cap')
           else some (true, .full (setChild ch i (some nn)) newFlag, cap')) := by
  rw [insertN, if_neg (by simp)]

theorem insertN_full_get (ch : List (Option Node)) (nf : NodeFlag) (pre : Nibs)
    (i : Nat) (rest : Nibs) (value : Node) (cap : TrieCapture) (child : Option Node)
    (hch : ch.get? i = some child) :
    insertN (some (.full ch nf)) pre (i :: rest) value cap =
      (match insertN child (pre ++ [i]) rest value cap with
       | none => none
       | some (dirty, nn, cap') =>
         if !dirty then some (false, .full ch nf, cap')
         else some (true, .full (setChild ch i (some nn)) newFlag, cap')) := by
  rw [insertN_full_eq]
  split
  · rename_i heq; rw [hch] at heq; cases heq
  · rename_i child2 heq; rw [hch] at heq; injection heq with h2; rw [h2]


theorem branch_get_i2 (i1 i2 : Nat) (c1 c2 : Node) (h2 : i2 < 17) :
    (setChild (setChild emptyChildren i1 (some c1)) i2 (some c2)).get? i2 =
      some (some c2) := by
  apply setChild_get_self
  rw [setChild_length]
  simpa [emptyChildren] using h2

theorem branch_get_i1 (i1 i2 : Nat) (c1 c2 : Node) (h12 : ¬ i1 = i2) (h1 : i1 < 17) :
    (setChild (setChild emptyChildren i1 (some c1)) i2 (some c2)).get? i1 =
      some (some c1) := by
  rw [setChild_get_other _ _ _ _ h12]
  apply setChild_get_self
  simpa [emptyChildren] using h1

theorem branch_get_none (i1 i2 j : Nat) (c1 c2 : Node) (hj1 : ¬ j = i1)
    (hj2 : ¬ j = i2) (hj : j < 17) :
    (setChild (setChild emptyChildren i1 (some c1)) i2 (some c2)).get? j =
      some none := by
  rw [setChild_get_other _ _ _ _ hj2, setChild_get_other _ _ _ _ hj1]
  exact emptyChildren_get j hj

theorem branch_wf (i1 i2 : Nat) (c1 c2 : Node)
    (h12 : ¬ i1 = i2) (h1le : i1 ≤ 16) (h2le : i2 ≤ 16)
    (h1wf : ¬ i1 = 16 → wfN c1 = true) (h1val : i1 = 16 → ∃ vv, c1 = .value vv)
    (h2wf : ¬ i2 = 16 → wfN c2 = true) (h2val : i2 = 16 → ∃ vv, c2 = .value vv) :
    wfN (.full (setChild (setChild emptyChildren i1 (some c1)) i2 (some c2))
      newFlag) = true := by
  apply wf_full_intro
  · rw [setChild_length, setChild_length]
    rfl
  · intro j c hj hc
    by_cases hj2 : j = i2
    · subst hj2
      rw [branch_get_i2 _ _ _ _ (by omega)] at hc
      injection hc with hc1
      injection hc1 with hc2
      rw [← hc2]
      exact h2wf (by omega)
    · by_cases hj1 : j = i1
      · subst hj1
        rw [branch_get_i1 _ _ _ _ h12 (by omega)] at hc
        injection hc with hc1
        injection hc1 with hc2
        rw [← hc2]
        exact h1wf (by omega)
      · rw [branch_get_none _ _ _ _ _ hj1 hj2 (by omega)] at hc
        injection hc with hc1
        cases hc1
  · intro c hc
    by_cases hj2 : (16 : Nat) = i2
    · subst hj2
      rw [branch_get_i2 _ _ _ _ (by omega)] at hc
      injection hc with hc1
      injection hc1 with hc2
      obtain ⟨vv, hvv⟩ := h2val rfl
      exact ⟨vv, by rw [← hc2, hvv]⟩
    · by_cases hj1 : (16 : Nat) = i1
      · subst hj1
        rw [branch_get_i1 _ _ _ _ h12 (by omega)] at hc
        injection hc with hc1
        injection hc1 with hc2
        obtain ⟨vv, hvv⟩ := h1val rfl
        exact ⟨vv, by rw [← hc2, hvv]⟩
      · rw [branch_get_none _ _ _ _ _ hj1 hj2 (by omega)] at hc
        injection hc with hc1
        cases hc1

theorem branch_lookup_hit (i1 i2 : Nat) (c1 : Node) (key : Nibs) (m : Nat) (w : Bytes)
    (h12 : ¬ i1 = i2) (h2 : i2 < 17) (hg : key.get? m = some i2) :
    tryGetV (some (.full (setChild (setChild emptyChildren i1 (some c1)) i2
      (some (if key.drop (m+1) = [] then Node.value w
             else .short (key.drop (m+1)) (.value w) newFlag))) newFlag))
      (key.drop m) = some (some w) := by
  rw [drop_eq_get_cons hg]
  rw [tryGetV_full _ _ i2 (key.drop (m+1)) _ (branch_get_i2 _ _ _ _ h2)]
  rw [tryGetV_stub, if_pos (List.take_length _), List.drop_length, tryGetV_value]

theorem branch_frame
    (nk key k2 : Nibs) (nv : Node) (nf : NodeFlag) (v : Bytes) (m i1 i2 : Nat)
    (hkey : leafKey key = true) (hk2 : leafKey k2 = true)
    (hwf : wfN (.short nk nv nf) = true)
    (hgi1 : nk.get? m = some i1) (hgi2 : key.get? m = some i2)
    (hi12 : ¬ i1 = i2)
    (hmltn : m < nk.length)
    (htakemn : key.take m = nk.take m)
    (hne : ¬ k2 = key)
    (hCtake : k2.take m = key.take m) :
    tryGetV (some (.full (setChild (setChild emptyChildren i1
        (some (if nk.drop (m+1) = [] then nv else .short (nk.drop (m+1)) nv newFlag))) i2
        (some (if key.drop (m+1) = [] then Node.value v
               else .short (key.drop (m+1)) (.value v) newFlag))) newFlag))
      (k2.drop m) = tryGetV (some (.short nk nv nf)) k2 := by
  have hi1le : i1 ≤ 16 := by
    rcases wf_short_cases hwf with ⟨w, hv, hleaf⟩ | ⟨_, hext, _⟩
    · exact leafKey_get_le m i1 hleaf hgi1
    · exact Nat.le_of_lt (extKey_lt hext i1 (List.get?_mem hgi1))
  have hi2le : i2 ≤ 16 := leafKey_get_le m i2 hkey hgi2
  have hmltk : m < key.length := by
    by_contra h
    rw [List.get?_eq_none.mpr (by omega)] at hgi2
    cases hgi2
  have hmltk2 : m < k2.length := by
    by_contra hc
    have hk2len : k2.length ≤ m := by omega
    have hk2eq : k2 = key.take m := by
      rw [← hCtake, List.take_of_length_le hk2len]
    have hk21 : 1 ≤ k2.length := by
      cases k2 with
      | nil => exact absurd rfl (leafKey_ne_nil hk2)
      | cons a t => simp
    have hlast := leafKey_get_last hk2
    have htl : (key.take m).length = m := by
      rw [List.length_take]
      omega
    rw [hk2eq, htl] at hlast
    rw [List.get?_take (by omega)] at hlast
    have := leafKey_sixteen_last hkey hlast
    omega
  obtain ⟨j, hgj⟩ : ∃ x, k2.get? m = some x := by
    cases hg : k2.get? m with
    | none => exact absurd (List.get?_eq_none.mp hg) (by omega)
    | some x => exact ⟨x, rfl⟩
  have hjle : j ≤ 16 := leafKey_get_le m j hk2 hgj
  rw [drop_eq_get_cons hgj, tryGetV_short]
  by_cases hji2 : j = i2
  · -- the diverging nibble of k2 follows the freshly inserted leaf: not found
    rw [hji2] at hgj ⊢
    have hdne : ¬ key.drop (m+1) = [] := by
      intro hd
      have hlen2 : key.length ≤ m + 1 := (drop_nil_iff key (m+1)).mp hd
      have h162 : i2 = 16 := by
        have hm1 : m = key.length - 1 := by omega
        have hlast := leafKey_get_last hkey
        rw [← hm1, hgi2] at hlast
        exact Option.some.inj hlast
      have hm1' : m = k2.length - 1 := leafKey_sixteen_last hk2 (h162 ▸ hgj)
      apply hne
      have hk21 : 1 ≤ k2.length := by
        cases k2 with
        | nil => exact absurd rfl (leafKey_ne_nil hk2)
        | cons a t => simp
      have h1 : k2.length = m + 1 := by omega
      have h2 : key.length = m + 1 := by omega
      have htk : k2.take (m+1) = key.take (m+1) :=
        take_succ_eq hCtake (by rw [hgj, hgi2])
      calc k2 = k2.take (m+1) := (List.take_of_length_le (by omega)).symm
        _ = key.take (m+1) := htk
        _ = key := List.take_of_length_le (by omega)
    rw [tryGetV_full _ _ i2 (k2.drop (m+1)) _ (branch_get_i2 _ _ _ _ (by omega))]
    rw [tryGetV_stub]
    have hi2lt : i2 < 16 := by
      by_contra hge
      have h162 : i2 = 16 := by omega
      have hm1 : m = key.length - 1 := leafKey_sixteen_last hkey (h162 ▸ hgi2)
      exact hdne ((drop_nil_iff key (m+1)).mpr (by omega))
    have hcond1 : ¬ ((k2.drop (m+1)).take (key.drop (m+1)).length = key.drop (m+1)) := by
      intro hp
      have hm1k2 : m + 1 < k2.length := by
        by_contra hcl
        have hmx : m = k2.length - 1 := by omega
        have hlast := leafKey_get_last hk2
        rw [← hmx, hgj] at hlast
        injection hlast with hx
        omega
      have hm1k : m + 1 < key.length := by
        have := mt (drop_nil_iff key (m+1)).mpr hdne
        omega
      have heq2 := leafKey_prefix_eq (leafKey_drop (m+1) hkey hm1k)
        (leafKey_drop (m+1) hk2 hm1k2) hp
      apply hne
      have htk := take_succ_eq hCtake (by rw [hgj, hgi2])
      calc k2 = k2.take (m+1) ++ k2.drop (m+1) := (List.take_append_drop _ _).symm
        _ = key.take (m+1) ++ key.drop (m+1) := by rw [htk, heq2]
        _ = key := List.take_append_drop _ _
    rw [if_neg hcond1]
    have hcond2 : k2.take nk.length ≠ nk := by
      apply take_ne_of_get_ne hmltn
      rw [hgj, hgi1]
      intro hcc
      injection hcc with hcc2
      exact hi12 hcc2.symm
    rw [if_pos hcond2]
  · by_cases hji1 : j = i1
    · -- k2 continues into the original child through the rebuilt extension
      rw [hji1] at hgj ⊢
      rw [tryGetV_full _ _ i1 (k2.drop (m+1)) _ (branch_get_i1 _ _ _ _ hi12 (by omega))]
      rw [tryGetV_stub]
      have htk1 : k2.take (m+1) = nk.take (m+1) :=
        take_succ_eq (hCtake.trans htakemn) (by rw [hgj, hgi1])
      have hiff := prefix_split (a := k2) (b := nk) (j := m+1)
        (by omega) (by omega) htk1
      have hlen_drop : (nk.drop (m+1)).length = nk.length - (m+1) :=
        List.length_drop _ _
      have hdd : (k2.drop (m+1)).drop (nk.length - (m+1)) = k2.drop nk.length := by
        rw [List.drop_drop]
        congr 1
        omega
      by_cases hcnd : k2.take nk.length = nk
      · rw [if_pos (show (k2.drop (m+1)).take (nk.drop (m+1)).length = nk.drop (m+1) by
          rw [hlen_drop]; exact hiff.mp hcnd)]
        rw [hlen_drop, hdd]
        rw [if_neg (fun hq => hq hcnd)]
      · rw [if_neg (show ¬ (k2.drop (m+1)).take (nk.drop (m+1)).length = nk.drop (m+1) by
          rw [hlen_drop]; exact fun hq => hcnd (hiff.mpr hq))]
        rw [if_pos hcnd]
    · -- k2 hits an empty slot of the new branch node
      rw [tryGetV_full _ _ j (k2.drop (m+1)) _
        (branch_get_none _ _ _ _ _ hji1 hji2 (by omega)), tryGetV_none]
      have hcond2 : k2.take nk.length ≠ nk := by
        apply take_ne_of_get_ne hmltn
        rw [hgj, hgi1]
        intro hcc
        injection hcc with hcc2
        exact hji1 hcc2
      rw [if_pos hcond2]



theorem insertN_main : ∀ (N : Nat) (n : Option Node), sizeOf n ≤ N →
    ∀ (pre key : Nibs) (v : Bytes) (cap : TrieCapture),
    wfOpt n = true → leafKey key = true →
    ∃ res, insertN n pre key (.value v) cap = some res ∧ InsConc n key v cap res := by
  intro N
  induction N with
  | zero =>
    intro n hsz
    exfalso
    cases n <;> simp at hsz
  | succ N ih =>
    intro n hsz pre key v cap hwf hkey
    have hknil : ¬ key = [] := leafKey_ne_nil hkey
    cases n with
    | none =>
      refine ⟨(true, .short key (.value v) newFlag, cap.onInsert pre), ?_, ?_, ?_, ?_, ?_, ?_⟩
      · rw [insertN_none, if_neg hknil, if_neg hknil]
      · rw [wfN]; exact hkey
      · rw [tryGetV_short, List.take_length, if_neg (by simp), List.drop_length, tryGetV_value]
      · intro k2 hk2 hne
        rw [tryGetV_none, tryGetV_short, if_pos ?_]
        intro hpre
        exact hne (leafKey_prefix_eq hkey hk2 hpre)
      · intro hd; cases hd
      · rw [tryGetV_none]; intro hc; injection hc with hc2; cases hc2
    | some nd =>
      cases nd with
      | value w => rw [wfOpt, wfN] at hwf; cases hwf
      | hash h2 => rw [wfOpt, wfN] at hwf; cases hwf
      | short nk nv nf =>
        rw [wfOpt] at hwf
        rw [insertN_short_eq nk nv nf pre key (.value v) cap hknil]
        by_cases hm : prefixLen key nk = nk.length
        · -- the key fully covers the short node key
          rw [if_pos hm]
          rcases wf_short_cases hwf with ⟨w, rfl, hleafnk⟩ | ⟨hnonval, hextnk, hwfnv⟩
          · -- leaf short node: the keys must coincide
            have htake : key.take nk.length = nk := prefixLen_full_take hm
            have hkeq : key = nk := leafKey_prefix_eq hleafnk hkey htake
            subst hkeq
            rw [hm, List.take_length, List.drop_length, insertN_nil_value]
            dsimp only
            by_cases hwv : w = v
            · subst hwv
              rw [show decide (¬ w = w) = false by simp]
              refine ⟨_, rfl, ?_, ?_, ?_, ?_, ?_⟩
              · exact hwf
              · rw [tryGetV_short, List.take_length, if_neg (fun h => h rfl),
                  List.drop_length, tryGetV_value]
              · intro k2 _ _; rfl
              · intro _; exact ⟨rfl, rfl⟩
              · intro _; rfl
            · rw [show decide (¬ w = v) = true by simp [hwv]]
              refine ⟨_, rfl, ?_, ?_, ?_, ?_, ?_⟩
              · exact wf_short_intro_leaf hleafnk
              · rw [tryGetV_short, List.take_length, if_neg (fun h => h rfl),
                  List.drop_length, tryGetV_value]
              · intro k2 hk2 hne
                rw [tryGetV_short, tryGetV_short]
                have hcond : k2.take key.length ≠ key :=
                  fun hp => hne (leafKey_prefix_eq hleafnk hk2 hp)
                rw [if_pos hcond, if_pos hcond]
              · intro hd; cases hd
              · intro hcontra
                rw [tryGetV_short, List.take_length, if_neg (fun h => h rfl),
                  List.drop_length, tryGetV_value] at hcontra
                injection hcontra with h1
                injection h1 with h2
                exact absurd h2 hwv
          · -- extension short node: recurse into the child
            have htake : key.take nk.length = nk := prefixLen_full_take hm
            have hnklt : nk.length < key.length := by
              have hle : nk.length ≤ key.length := hm ▸ prefixLen_le_left key nk
              rcases Nat.eq_or_lt_of_le hle with heq | hlt
              · exfalso
                have hkeq : key = nk := by
                  rw [← htake, heq, List.take_length]
                have h16 : (16 : Nat) ∈ key := by
                  obtain ⟨s, hks, _⟩ := (leafKey_iff key).mp hkey
                  rw [hks]
                  exact List.mem_append_right s (List.mem_singleton.mpr rfl)
                rw [hkeq] at h16
                exact absurd (extKey_lt hextnk 16 h16) (by omega)
              · exact hlt
            have hkdrop : leafKey (key.drop nk.length) = true :=
              leafKey_drop nk.length hkey hnklt
            have hsznv : sizeOf (some nv) ≤ N := by
              simp only [Option.some.sizeOf_spec, Node.short.sizeOf_spec] at hsz
              simp only [Option.some.sizeOf_spec]
              omega
            rw [hm]
            obtain ⟨⟨d', nn, cap'⟩, hins, hconc⟩ :=
              ih (some nv) hsznv (pre ++ key.take nk.length)
                (key.drop nk.length) v cap (by rw [wfOpt]; exact hwfnv) hkdrop
            obtain ⟨hwfnn, hget, hframe, hclean, hsame⟩ := hconc
            dsimp only at hwfnn hget hframe hclean hsame
            rw [hins]
            by_cases hd : d' = false
            · subst hd
              obtain ⟨hchild, hcap⟩ := hclean rfl
              injection hchild with hnveq
              refine ⟨_, rfl, ?_, ?_, ?_, ?_, ?_⟩
              · exact hwf
              · rw [tryGetV_short, if_neg (fun h => h htake), hnveq]
                exact hget
              · intro k2 _ _; rfl
              · intro _; exact ⟨rfl, hcap⟩
              · intro _; rfl
            · have hd' : d' = true := by cases d' <;> simp_all
              subst hd'
              refine ⟨_, rfl, ?_, ?_, ?_, ?_, ?_⟩
              · exact wf_short_intro_ext hextnk hwfnn
              · rw [tryGetV_short, if_neg (fun h => h htake)]
                exact hget
              · intro k2 hk2 hne
                rw [tryGetV_short, tryGetV_short]
                by_cases hc : k2.take nk.length = nk
                · rw [if_neg (fun h => h hc), if_neg (fun h => h hc)]
                  have hnlt2 : nk.length < k2.length := by
                    rcases Nat.lt_or_ge nk.length k2.length with h | h
                    · exact h
                    · exfalso
                      have hk2eq : k2 = nk := by
                        rw [← hc, List.take_of_length_le h]
                      have h16 : (16 : Nat) ∈ k2 := by
                        obtain ⟨s, hks, _⟩ := (leafKey_iff k2).mp hk2
                        rw [hks]
                        exact List.mem_append_right s (List.mem_singleton.mpr rfl)
                      rw [hk2eq] at h16
                      exact absurd (extKey_lt hextnk 16 h16) (by omega)
                  refine hframe (k2.drop nk.length) (leafKey_drop nk.length hk2 hnlt2) ?_
                  intro hdeq
                  apply hne
                  have h1 : k2 = k2.take nk.length ++ k2.drop nk.length :=
                    (List.take_append_drop nk.length k2).symm
                  have h2 : key = key.take nk.length ++ key.drop nk.length :=
                    (List.take_append_drop nk.length key).symm
                  rw [h1, h2, hc, htake, hdeq]
                · rw [if_pos hc, if_pos hc]
              · intro hd2; cases hd2
              · intro hcontra
                rw [tryGetV_short, if_neg (fun h => h htake)] at hcontra
                exact absurd (hsame hcontra) (by simp)
        · -- the keys diverge inside the short key: branch out
          rw [if_neg hm]
          have h16last : ∀ t, nk.get? t = some 16 → t = nk.length - 1 := by
            intro t ht
            rcases wf_short_cases hwf with ⟨w, hv, hleaf⟩ | ⟨_, hext, _⟩
            · exact leafKey_sixteen_last hleaf ht
            · exact absurd (extKey_lt hext 16 (List.get?_mem ht)) (by omega)
          have hnkel : ∀ t x, nk.get? t = some x → x ≤ 16 := by
            intro t x ht
            rcases wf_short_cases hwf with ⟨w, hv, hleaf⟩ | ⟨_, hext, _⟩
            · exact leafKey_get_le t x hleaf ht
            · exact Nat.le_of_lt (extKey_lt hext x (List.get?_mem ht))
          generalize hmdef : prefixLen key nk = m
          rw [hmdef] at hm
          have hmltn : m < nk.length :=
            Nat.lt_of_le_of_ne (hmdef ▸ prefixLen_le_right key nk) hm
          have hmlek : m ≤ key.length := hmdef ▸ prefixLen_le_left key nk
          have htakemn : key.take m = nk.take m := hmdef ▸ prefixLen_take key nk
          have hmltk : m < key.length := by
            rcases Nat.eq_or_lt_of_le hmlek with heq | hlt
            · exfalso
              have hkl1 : 1 ≤ key.length := by
                cases key with
                | nil => exact absurd rfl hknil
                | cons a t => simp
              have hlast := leafKey_get_last hkey
              have hmm : key.length - 1 < m := by omega
              have h3 := congrArg (fun l => List.get? l (key.length - 1)) htakemn
              dsimp only at h3
              rw [List.get?_take hmm, List.get?_take hmm, hlast] at h3
              have h4 := h16last (key.length - 1) h3.symm
              omega
            · exact hlt
          obtain ⟨i2, hgi2⟩ : ∃ x, key.get? m = some x := by
            cases hg : key.get? m with
            | none => exact absurd (List.get?_eq_none.mp hg) (by omega)
            | some x => exact ⟨x, rfl⟩
          obtain ⟨i1, hgi1⟩ : ∃ x, nk.get? m = some x := by
            cases hg : nk.get? m with
            | none => exact absurd (List.get?_eq_none.mp hg) (by omega)
            | some x => exact ⟨x, rfl⟩
          have hgne : ¬ key.get? m = nk.get? m := by
            have h0 := prefixLen_get_ne key nk (by rw [hmdef]; exact hmltk)
              (by rw [hmdef]; exact hmltn)
            rw [hmdef] at h0
            exact h0
          have hi12 : ¬ i1 = i2 := by
            intro h
            rw [hgi2, hgi1, h] at hgne
            exact hgne rfl
          have hi2le : i2 ≤ 16 := leafKey_get_le m i2 hkey hgi2
          have hi1le : i1 ≤ 16 := hnkel m i1 hgi1
          have hwfC1 : ¬ i1 = 16 → wfN (if nk.drop (m+1) = [] then nv
              else .short (nk.drop (m+1)) nv newFlag) = true := by
            intro h16
            by_cases hdnil : nk.drop (m+1) = []
            · rw [if_pos hdnil]
              rcases wf_short_cases hwf with ⟨w, hv, hleaf⟩ | ⟨_, _, hwfnv⟩
              · exfalso
                have hlen : nk.length ≤ m + 1 := (drop_nil_iff nk (m+1)).mp hdnil
                have hm1 : m = nk.length - 1 := by omega
                have hlast := leafKey_get_last hleaf
                rw [← hm1, hgi1] at hlast
                exact h16 (Option.some.inj hlast)
              · exact hwfnv
            · rw [if_neg hdnil]
              have hm1lt : m + 1 < nk.length := by
                have := mt (drop_nil_iff nk (m+1)).mpr hdnil
                omega
              rcases wf_short_cases hwf with ⟨w, hv, hleaf⟩ | ⟨hnonval, hext, hwfnv⟩
              · rw [hv]
                exact wf_short_intro_leaf (leafKey_drop (m+1) hleaf hm1lt)
              · refine wf_short_intro_ext (extKey_intro hdnil ?_) hwfnv
                exact fun x hx => extKey_lt hext x (List.mem_of_mem_drop hx)
          have hvalC1 : i1 = 16 → ∃ vv, (if nk.drop (m+1) = [] then nv
              else .short (nk.drop (m+1)) nv newFlag) = .value vv := by
            intro h16
            rcases wf_short_cases hwf with ⟨w, hv, hleaf⟩ | ⟨_, hext, _⟩
            · have hm1 : m = nk.length - 1 := leafKey_sixteen_last hleaf (h16 ▸ hgi1)
              have hnk1 : 1 ≤ nk.length := by omega
              have hdnil : nk.drop (m+1) = [] :=
                (drop_nil_iff nk (m+1)).mpr (by omega)
              rw [if_pos hdnil, hv]
              exact ⟨w, rfl⟩
            · exact absurd (extKey_lt hext 16 (List.get?_mem (h16 ▸ hgi1))) (by omega)
          have hi2_16_iff : i2 = 16 ↔ key.drop (m+1) = [] := by
            constructor
            · intro h16
              have hm1 : m = key.length - 1 := leafKey_sixteen_last hkey (h16 ▸ hgi2)
              exact (drop_nil_iff key (m+1)).mpr (by omega)
            · intro hdnil
              have hlen : key.length ≤ m + 1 := (drop_nil_iff key (m+1)).mp hdnil
              have hm1 : m = key.length - 1 := by omega
              have hlast := leafKey_get_last hkey
              rw [← hm1, hgi2] at hlast
              exact Option.some.inj hlast
          have hwfC2 : ¬ i2 = 16 → wfN (if key.drop (m+1) = [] then Node.value v
              else .short (key.drop (m+1)) (.value v) newFlag) = true := by
            intro h16
            have hdnil : ¬ key.drop (m+1) = [] := fun h => h16 (hi2_16_iff.mpr h)
            rw [if_neg hdnil]
            have hm1lt : m + 1 < key.length := by
              have := mt (drop_nil_iff key (m+1)).mpr hdnil
              omega
            exact wf_short_intro_leaf (leafKey_drop (m+1) hkey hm1lt)
          have hvalC2 : i2 = 16 → ∃ vv, (if key.drop (m+1) = [] then Node.value v
              else .short (key.drop (m+1)) (.value v) newFlag) = .value vv := by
            intro h16
            rw [if_pos (hi2_16_iff.mp h16)]
            exact ⟨v, rfl⟩
          have hcond5 : key.take nk.length ≠ nk := fun hp =>
            hm (by rw [← hmdef]; exact take_prefixLen_full key nk hp)
          rw [insertN_none]
          dsimp only
          rw [insertN_none]
          dsimp only
          rw [hgi1, hgi2]
          dsimp only
          by_cases hm0 : m = 0
          · subst hm0
            rw [if_pos rfl]
            refine ⟨_, rfl, ?_, ?_, ?_, ?_, ?_⟩
            · exact branch_wf i1 i2 _ _ hi12 hi1le hi2le hwfC1 hvalC1 hwfC2 hvalC2
            · have h := branch_lookup_hit i1 i2
                (if nk.drop (0+1) = [] then nv else .short (nk.drop (0+1)) nv newFlag)
                key 0 v hi12 (by omega) hgi2
              rwa [List.drop_zero] at h
            · intro k2 hk2 hne
              have h := branch_frame nk key k2 nv nf v 0 i1 i2 hkey hk2 hwf hgi1 hgi2
                hi12 hmltn htakemn hne (by rw [List.take_zero, List.take_zero])
              rwa [List.drop_zero] at h
            · intro hd; cases hd
            · intro hcontra
              rw [tryGetV_short, if_pos hcond5] at hcontra
              injection hcontra with h1
              cases h1
          · rw [if_neg hm0]
            refine ⟨_, rfl, ?_, ?_, ?_, ?_, ?_⟩
            · exact wf_short_intro_ext
                (extKey_take_of_leaf m hkey (Nat.pos_of_ne_zero hm0) hmltk)
                (branch_wf i1 i2 _ _ hi12 hi1le hi2le hwfC1 hvalC1 hwfC2 hvalC2)
            · rw [tryGetV_short]
              have htl : (key.take m).length = m := by
                rw [List.length_take]
                omega
              rw [htl, if_neg (fun hq => hq rfl)]
              exact branch_lookup_hit i1 i2 _ key m v hi12 (by omega) hgi2
            · intro k2 hk2 hne
              rw [tryGetV_short]
              have htl : (key.take m).length = m := by
                rw [List.length_take]
                omega
              rw [htl]
              by_cases hCt : k2.take m = key.take m
              · rw [if_neg (fun hq => hq hCt)]
                exact branch_frame nk key k2 nv nf v m i1 i2 hkey hk2 hwf hgi1 hgi2
                  hi12 hmltn htakemn hne hCt
              · rw [if_pos hCt]
                rw [tryGetV_short]
                have hcnd : k2.take nk.length ≠ nk := by
                  intro hp
                  apply hCt
                  have h1 : k2.take m = (k2.take nk.length).take m := by
                    rw [List.take_take, Nat.min_eq_left (Nat.le_of_lt hmltn)]
                  rw [h1, hp, ← htakemn]
                rw [if_pos hcnd]
            · intro hd; cases hd
            · intro hcontra
              rw [tryGetV_short, if_pos hcond5] at hcontra
              injection hcontra with h1
              cases h1
      | full ch nf =>
        rw [wfOpt] at hwf
        obtain ⟨hlen, hslot, hslot16⟩ := wf_full_elim hwf
        cases key with
        | nil => exact absurd rfl hknil
        | cons i rest =>
        have hi0 : (i :: rest).get? 0 = some i := rfl
        have hile : i ≤ 16 := leafKey_get_le 0 i hkey hi0
        obtain ⟨child, hch⟩ : ∃ c, ch.get? i = some c := by
          cases hg : ch.get? i with
          | none =>
            exfalso
            have := List.get?_eq_none.mp hg
            omega
          | some c => exact ⟨c, rfl⟩
        rw [insertN_full_get ch nf pre i rest (.value v) cap child hch]
        by_cases hi16 : i = 16
        · subst hi16
          have hrest : rest = [] := by
            cases rest with
            | nil => rfl
            | cons a t =>
              obtain ⟨x, hx, hxlt⟩ := leafKey_get_lt 0 hkey (by simp)
              rw [hi0] at hx
              injection hx with hx2
              omega
          subst hrest
          have hframe_common : ∀ k2, leafKey k2 = true → ¬ k2 = [16] →
              tryGetV (some (.full (setChild ch 16 (some (.value v))) newFlag)) k2 =
                tryGetV (some (.full ch nf)) k2 := by
            intro k2 hk2 hne
            cases k2 with
            | nil => exact absurd rfl (leafKey_ne_nil hk2)
            | cons j rest2 =>
              have hj0 : (j :: rest2).get? 0 = some j := rfl
              have hjle : j ≤ 16 := leafKey_get_le 0 j hk2 hj0
              by_cases hj16 : j = 16
              · subst hj16
                exfalso
                cases rest2 with
                | nil => exact hne rfl
                | cons b t2 =>
                  obtain ⟨x, hx, hxlt⟩ := leafKey_get_lt 0 hk2 (by simp)
                  rw [hj0] at hx
                  injection hx with hx2
                  omega
              · obtain ⟨cj, hcj⟩ : ∃ c, ch.get? j = some c := by
                  cases hg : ch.get? j with
                  | none =>
                    exfalso
                    have := List.get?_eq_none.mp hg
                    omega
                  | some c => exact ⟨c, rfl⟩
                rw [tryGetV_full _ _ j rest2 cj
                  (by rw [setChild_get_other _ _ _ _ hj16]; exact hcj)]
                rw [tryGetV_full _ _ j rest2 cj hcj]
          have hwf_new : wfN (.full (setChild ch 16 (some (.value v))) newFlag) = true := by
            apply wf_full_intro
            · rw [setChild_length]; exact hlen
            · intro j c hj hc
              rw [setChild_get_other _ _ _ _ (by omega)] at hc
              exact hslot j c hj hc
            · intro c hc
              rw [setChild_get_self _ _ _ (by omega)] at hc
              injection hc with hc1
              injection hc1 with hc2
              exact ⟨v, hc2.symm⟩
          cases child with
          | none =>
            have hins : insertN none (pre ++ [16]) [] (.value v) cap =
                some (true, .value v, cap) := by
              rw [insertN_none]; simp
            rw [hins]
            refine ⟨_, rfl, ?_, ?_, ?_, ?_, ?_⟩
            · exact hwf_new
            · rw [tryGetV_full _ _ 16 [] (some (.value v))
                (by rw [setChild_get_self _ _ _ (by omega)]), tryGetV_value]
            · exact hframe_common
            · intro hd; cases hd
            · intro hcontra
              rw [tryGetV_full ch nf 16 [] none hch, tryGetV_none] at hcontra
              injection hcontra with hc2
              cases hc2
          | some c =>
            obtain ⟨w, hw⟩ := hslot16 c hch
            subst hw
            rw [insertN_nil_value]
            dsimp only
            by_cases hwv : w = v
            · subst hwv
              rw [show decide (¬ w = w) = false by simp]
              refine ⟨_, rfl, ?_, ?_, ?_, ?_, ?_⟩
              · exact hwf
              · rw [tryGetV_full ch nf 16 [] (some (.value w)) hch, tryGetV_value]
              · intro k2 _ _; rfl
              · intro _; exact ⟨rfl, rfl⟩
              · intro _; rfl
            · rw [show decide (¬ w = v) = true by simp [hwv]]
              refine ⟨_, rfl, ?_, ?_, ?_, ?_, ?_⟩
              · exact hwf_new
              · rw [tryGetV_full _ _ 16 [] (some (.value v))
                  (by rw [setChild_get_self _ _ _ (by omega)]), tryGetV_value]
              · exact hframe_common
              · intro hd; cases hd
              · intro hcontra
                rw [tryGetV_full ch nf 16 [] (some (.value w)) hch, tryGetV_value] at hcontra
                injection hcontra with hc2
                injection hc2 with hc3
                exact absurd hc3 hwv
        · have hilt : i < 16 := by omega
          have hrestne : ¬ rest = [] := by
            intro h
            subst h
            have hlast := leafKey_get_last hkey
            simp only [List.length_cons, List.length_nil] at hlast
            rw [hi0] at hlast
            injection hlast with h2
            exact hi16 h2
          have hkrest : leafKey rest = true := by
            have h2 : rest = (i :: rest).drop 1 := rfl
            rw [h2]
            refine leafKey_drop 1 hkey ?_
            cases rest with
            | nil => exact absurd rfl hrestne
            | cons a t => simp
          have hwfc : wfOpt child = true := by
            cases child with
            | none => rfl
            | some c => rw [wfOpt]; exact hslot i c hilt hch
          have hszc : sizeOf child ≤ N := by
            have hmem : child ∈ ch := List.get?_mem hch
            have hlt := List.sizeOf_lt_of_mem hmem
            simp only [Option.some.sizeOf_spec, Node.full.sizeOf_spec] at hsz
            omega
          obtain ⟨⟨d', nn, cap'⟩, hins, hconc⟩ :=
            ih child hszc (pre ++ [i]) rest v cap hwfc hkrest
          obtain ⟨hwfnn, hget, hframe, hclean, hsame⟩ := hconc
          rw [hins]
          by_cases hd : d' = false
          · subst hd
            obtain ⟨hchild, hcap⟩ := hclean rfl
            refine ⟨_, rfl, ?_, ?_, ?_, ?_, ?_⟩
            · exact hwf
            · rw [tryGetV_full ch nf i rest child hch, hchild]
              exact hget
            · intro k2 _ _; rfl
            · intro _; exact ⟨rfl, hcap⟩
            · intro _; rfl
          · have hd' : d' = true := by cases d' <;> simp_all
            subst hd'
            refine ⟨_, rfl, ?_, ?_, ?_, ?_, ?_⟩
            · apply wf_full_intro
              · rw [setChild_length]; exact hlen
              · intro j c hj hc
                by_cases hji : j = i
                · subst hji
                  rw [setChild_get_self _ _ _ (by omega)] at hc
                  injection hc with hc1
                  injection hc1 with hc2
                  rw [← hc2]
                  exact hwfnn
                · rw [setChild_get_other _ _ _ _ hji] at hc
                  exact hslot j c hj hc
              · intro c hc
                rw [setChild_get_other _ _ _ _ (fun h => hi16 h.symm)] at hc
                exact hslot16 c hc
            · rw [tryGetV_full _ _ i rest (some nn)
                (by rw [setChild_get_self _ _ _ (by omega)])]
              exact hget
            · intro k2 hk2 hne
              cases k2 with
              | nil => exact absurd rfl (leafKey_ne_nil hk2)
              | cons j rest2 =>
                have hj0 : (j :: rest2).get? 0 = some j := rfl
                have hjle : j ≤ 16 := leafKey_get_le 0 j hk2 hj0
                by_cases hji : j = i
                · subst hji
                  have hrest2 : ¬ rest2 = rest := by
                    intro h; subst h; exact hne rfl
                  have hrest2ne : ¬ rest2 = [] := by
                    intro h
                    subst h
                    have hlast := leafKey_get_last hk2
                    simp only [List.length_cons, List.length_nil] at hlast
                    rw [hj0] at hlast
                    injection hlast with h2
                    exact hi16 h2
                  have hk2rest : leafKey rest2 = true := by
                    have h2 : rest2 = (j :: rest2).drop 1 := rfl
                    rw [h2]
                    refine leafKey_drop 1 hk2 ?_
                    cases rest2 with
                    | nil => exact absurd rfl hrest2ne
                    | cons a t => simp
                  rw [tryGetV_full _ _ j rest2 (some nn)
                    (by rw [setChild_get_self _ _ _ (by omega)])]
                  rw [tryGetV_full ch nf j rest2 child hch]
                  exact hframe rest2 hk2rest hrest2
                · obtain ⟨cj, hcj⟩ : ∃ c, ch.get? j = some c := by
                    cases hg : ch.get? j with
                    | none =>
                      exfalso
                      have := List.get?_eq_none.mp hg
                      omega
                    | some c => exact ⟨c, rfl⟩
                  rw [tryGetV_full _ _ j rest2 cj
                    (by rw [setChild_get_other _ _ _ _ hji]; exact hcj)]
                  rw [tryGetV_full ch nf j rest2 cj hcj]
            · intro hd2; cases hd2
            · intro hcontra
              rw [tryGetV_full ch nf i rest child hch] at hcontra
              exact absurd (hsame hcontra) hd

theorem leafKey_hex {b : Bytes} (h : ∀ x ∈ b, x < 256) :
    leafKey (keybytesToHex b) = true := by
  unfold keybytesToHex
  refine (leafKey_iff _).mpr ⟨b.flatMap fun x => [x / 16, x % 16], rfl, ?_⟩
  intro y hy
  rw [List.mem_flatMap] at hy
  obtain ⟨x, hxb, hyx⟩ := hy
  simp only [List.mem_cons, List.mem_singleton, List.not_mem_nil, or_false] at hyx
  rcases hyx with h1 | h1
  · subst h1
    have := h x hxb
    omega
  · subst h1
    have := Nat.mod_lt x (show 0 < 16 by omega)
    omega

theorem flat_pair_inj : ∀ b1 b2 : Bytes,
    (b1.flatMap fun x => [x / 16, x % 16]) = (b2.flatMap fun x => [x / 16, x % 16]) →
    b1 = b2 := by
  intro b1
  induction b1 with
  | nil =>
    intro b2 h
    cases b2 with
    | nil => rfl
    | cons y t => simp at h
  | cons x t1 ih =>
    intro b2 h
    cases b2 with
    | nil => simp at h
    | cons y t2 =>
      simp only [List.flatMap_cons, List.cons_append, List.nil_append] at h
      injection h with h1 h'
      injection h' with h2 h3
      have hx := Nat.div_add_mod x 16
      have hy := Nat.div_add_mod y 16
      have hxy : x = y := by omega
      rw [hxy, ih t2 h3]

theorem keybytesToHex_inj {b1 b2 : Bytes} (h : keybytesToHex b1 = keybytesToHex b2) :
    b1 = b2 := by
  unfold keybytesToHex at h
  have h2 := congrArg List.dropLast h
  rw [List.dropLast_concat, List.dropLast_concat] at h2
  exact flat_pair_inj b1 b2 h2

theorem wfRoot_eq_wfOpt (t : TrieM) : wfRoot t = wfOpt t.root := by
  cases h : t.root <;> simp [wfRoot, wfOpt, h]

theorem tryUpdate_insert (t : TrieM) (k v : Bytes) (hwf : wfRoot t = true)
    (hv : ¬ v = []) (hk : ∀ x ∈ k, x < 256) :
    ∃ t2, tryUpdate t k v = some t2 ∧ wfRoot t2 = true ∧
      TryGetT t2 k = some (some v) ∧
      (∀ k2, (∀ x ∈ k2, x < 256) → ¬ k2 = k → TryGetT t2 k2 = TryGetT t k2) ∧
      (TryGetT t k = some (some v) → t2 = t) := by
  have hleaf : leafKey (keybytesToHex k) = true := leafKey_hex hk
  have hwfo : wfOpt t.root = true := by rw [← wfRoot_eq_wfOpt]; exact hwf
  obtain ⟨⟨d, n, cap'⟩, hins, hconc⟩ :=
    insertN_main (sizeOf t.root) t.root (Nat.le_refl _) [] (keybytesToHex k) v t.cap
      hwfo hleaf
  obtain ⟨hwfn, hget, hframe, hclean, hsame⟩ := hconc
  dsimp only at hwfn hget hframe hclean hsame
  refine ⟨⟨some n, cap'⟩, ?_, ?_, ?_, ?_, ?_⟩
  · unfold tryUpdate
    rw [if_pos (show v.length ≠ 0 from fun h => hv (List.length_eq_zero.mp h))]
    rw [hins]
  · rw [wfRoot_eq_wfOpt]
    exact hwfn
  · exact hget
  · intro k2 hk2 hne
    exact hframe (keybytesToHex k2) (leafKey_hex hk2)
      (fun hq => hne (keybytesToHex_inj hq))
  · intro hsamev
    obtain ⟨hroot, hcap⟩ := hclean (hsame hsamev)
    cases t with
    | mk r c =>
      dsimp only at hroot hcap
      rw [← hroot, hcap]

theorem UpdateT_props (t : TrieM) (k v : Bytes) (hwf : wfRoot t = true)
    (hv : ¬ v = []) (hk : ∀ x ∈ k, x < 256) :
    wfRoot (UpdateT t k v) = true ∧ TryGetT (UpdateT t k v) k = some (some v) ∧
      (∀ k2, (∀ x ∈ k2, x < 256) → ¬ k2 = k →
        TryGetT (UpdateT t k v) k2 = TryGetT t k2) := by
  obtain ⟨t2, heq, hwf2, hget2, hframe2, _⟩ := tryUpdate_insert t k v hwf hv hk
  unfold UpdateT
  rw [heq]
  exact ⟨hwf2, hget2, hframe2⟩

theorem foldUpdate_wf : ∀ (ops : List (Bytes × Bytes)) (t0 : TrieM),
    wfRoot t0 = true → (∀ p ∈ ops, ¬ p.2 = []) →
    (∀ p ∈ ops, ∀ x ∈ p.1, x < 256) →
    wfRoot (ops.foldl (fun t q => UpdateT t q.1 q.2) t0) = true := by
  intro ops
  induction ops with
  | nil => intro t0 hwf _ _; exact hwf
  | cons q rest ih =>
    intro t0 hwf hvals hbytes
    rw [List.foldl_cons]
    exact ih (UpdateT t0 q.1 q.2)
      (UpdateT_props t0 q.1 q.2 hwf (hvals q (List.mem_cons_self q rest))
        (hbytes q (List.mem_cons_self q rest))).1
      (fun p hp => hvals p (List.mem_cons_of_mem q hp))
      (fun p hp => hbytes p (List.mem_cons_of_mem q hp))

theorem foldUpdate_frame : ∀ (ops : List (Bytes × Bytes)) (t0 : TrieM),
    wfRoot t0 = true → (∀ p ∈ ops, ¬ p.2 = []) →
    (∀ p ∈ ops, ∀ x ∈ p.1, x < 256) →
    ∀ k, (∀ x ∈ k, x < 256) → ¬ k ∈ ops.map Prod.fst →
    TryGetT (ops.foldl (fun t q => UpdateT t q.1 q.2) t0) k = TryGetT t0 k := by
  intro ops
  induction ops with
  | nil => intro t0 _ _ _ k _ _; rfl
  | cons q rest ih =>
    intro t0 hwf hvals hbytes k hk hnot
    rw [List.foldl_cons]
    have hknq : ¬ k = q.1 := by
      intro h
      exact hnot (by rw [List.map_cons, h]; exact List.mem_cons_self _ _)
    have hknr : ¬ k ∈ rest.map Prod.fst := by
      intro h
      exact hnot (by rw [List.map_cons]; exact List.mem_cons_of_mem _ h)
    have h1 := ih (UpdateT t0 q.1 q.2)
      (UpdateT_props t0 q.1 q.2 hwf (hvals q (List.mem_cons_self q rest))
        (hbytes q (List.mem_cons_self q rest))).1
      (fun p hp => hvals p (List.mem_cons_of_mem q hp))
      (fun p hp => hbytes p (List.mem_cons_of_mem q hp)) k hk hknr
    rw [h1]
    exact (UpdateT_props t0 q.1 q.2 hwf (hvals q (List.mem_cons_self q rest))
      (hbytes q (List.mem_cons_self q rest))).2.2 k hk hknq


/-- C1: for every sequence of `Trie.Update(k_i, v_i)` calls on a well-formed
trie, with pairwise distinct keys and non-empty values (key bytes being
bytes), every subsequent `TryGet(k_i)` returns exactly `v_i` and `Get(k_i)`
returns the bytes `v_i`. -/
theorem c1_round_trip : ∀ (ops : List (Bytes × Bytes)) (t0 : TrieM),
    wfRoot t0 = true → (ops.map Prod.fst).Nodup →
    (∀ p ∈ ops, ¬ p.2 = []) → (∀ p ∈ ops, ∀ x ∈ p.1, x < 256) →
    ∀ p ∈ ops,
      TryGetT (ops.foldl (fun t q => UpdateT t q.1 q.2) t0) p.1 = some (some p.2) ∧
      GetT (ops.foldl (fun t q => UpdateT t q.1 q.2) t0) p.1 = p.2 := by
  intro ops
  induction ops with
  | nil => intro t0 _ _ _ _ p hp; cases hp
  | cons q rest ih =>
    intro t0 hwf hdist hvals hbytes p hp
    rw [List.foldl_cons]
    have hq2 := hvals q (List.mem_cons_self q rest)
    have hqb := hbytes q (List.mem_cons_self q rest)
    have hprops := UpdateT_props t0 q.1 q.2 hwf hq2 hqb
    rw [List.map_cons, List.nodup_cons] at hdist
    rcases List.mem_cons.mp hp with rfl | hpr
    · have hfr := foldUpdate_frame rest (UpdateT t0 p.1 p.2) hprops.1
        (fun p2 hp2 => hvals p2 (List.mem_cons_of_mem p hp2))
        (fun p2 hp2 => hbytes p2 (List.mem_cons_of_mem p hp2)) p.1 hqb hdist.1
      have htg : TryGetT (rest.foldl (fun t q => UpdateT t q.1 q.2)
          (UpdateT t0 p.1 p.2)) p.1 = some (some p.2) := by
        rw [hfr]
        exact hprops.2.1
      refine ⟨htg, ?_⟩
      unfold GetT
      rw [htg]
      rfl
    · exact ih (UpdateT t0 q.1 q.2) hprops.1 hdist.2
        (fun p2 hp2 => hvals p2 (List.mem_cons_of_mem q hp2))
        (fun p2 hp2 => hbytes p2 (List.mem_cons_of_mem q hp2)) p hpr

/-- C9: on a fully materialized (well-formed) trie that already maps `key`
to the non-empty value `v`, `Update(key, v)` is a no-op: `tryUpdate`
succeeds and returns the same root node and tracker unchanged. -/
theorem c9_reinsert_same_noop (t : TrieM) (k v : Bytes)
    (hwf : wfRoot t = true) (hv : ¬ v = []) (hk : ∀ x ∈ k, x < 256)
    (hcur : TryGetT t k = some (some v)) :
    tryUpdate t k v = some t ∧ UpdateT t k v = t := by
  obtain ⟨t2, heq, _, _, _, hfix⟩ := tryUpdate_insert t k v hwf hv hk
  have ht2 : t2 = t := hfix hcur
  subst ht2
  refine ⟨heq, ?_⟩
  unfold UpdateT
  rw [heq]
  rfl

theorem c1_round_trip_witness :
    ((([([97],[1]),([98],[2])] : List (Bytes × Bytes)).map Prod.fst).Nodup) ∧
    (∀ p ∈ ([([97],[1]),([98],[2])] : List (Bytes × Bytes)),
      TryGetT (([([97],[1]),([98],[2])] : List (Bytes × Bytes)).foldl
        (fun t q => UpdateT t q.1 q.2) emptyTrie) p.1 = some (some p.2) ∧
      GetT (([([97],[1]),([98],[2])] : List (Bytes × Bytes)).foldl
        (fun t q => UpdateT t q.1 q.2) emptyTrie) p.1 = p.2) :=
  ⟨by decide, c1_round_trip _ emptyTrie rfl (by decide) (by decide) (by decide)⟩

theorem c9_reinsert_same_noop_witness :
    TryGetT ⟨some (.short [6,1,16] (.value [7]) newFlag), newTracer⟩ [97] =
      some (some [7]) ∧
    tryUpdate ⟨some (.short [6,1,16] (.value [7]) newFlag), newTracer⟩ [97] [7] =
      some ⟨some (.short [6,1,16] (.value [7]) newFlag), newTracer⟩ :=
  ⟨by simp [TryGetT, keybytesToHex, tryGetV],
   (c9_reinsert_same_noop ⟨some (.short [6,1,16] (.value [7]) newFlag), newTracer⟩
     [97] [7] rfl (by decide) (by decide)
     (by simp [TryGetT, keybytesToHex, tryGetV])).1⟩


/-! ### C3 - flush-list invariant and the stale `newest` endpoint -/

theorem updEntry_get (d : List (Hash × CachedNode)) (h : Hash)
    (f : CachedNode → CachedNode) (x : Hash) :
    assocGet (updEntry d h f) x =
      if x = h then (assocGet d h).map f else assocGet d x := by
  unfold updEntry
  cases hg : assocGet d h with
  | none =>
    dsimp only
    by_cases hx : x = h
    · subst hx; rw [if_pos rfl, hg]; rfl
    · rw [if_neg hx]
  | some c =>
    dsimp only
    by_cases hx : x = h
    · subst hx; rw [if_pos rfl, assocGet_set_self]; rfl
    · rw [if_neg hx, assocGet_set_other _ _ _ _ hx]

theorem bumpParent_get (d : List (Hash × CachedNode)) (c x : Hash) :
    assocGet (bumpParent d c) x =
      if x = c then (assocGet d c).map (fun e => { e with parents := e.parents + 1 })
      else assocGet d x := by
  unfold bumpParent
  cases hg : assocGet d c with
  | none =>
    dsimp only
    by_cases hx : x = c
    · subst hx; rw [if_pos rfl, hg]; rfl
    · rw [if_neg hx]
  | some e =>
    dsimp only
    by_cases hx : x = c
    · subst hx; rw [if_pos rfl, assocGet_set_self]; rfl
    · rw [if_neg hx, assocGet_set_other _ _ _ _ hx]

theorem optLinks_isSome (o : Option CachedNode) : (optLinks o).isSome = o.isSome := by
  cases o <;> rfl

theorem bumpParent_links (d : List (Hash × CachedNode)) (c x : Hash) :
    optLinks (assocGet (bumpParent d c) x) = optLinks (assocGet d x) := by
  rw [bumpParent_get]
  by_cases hx : x = c
  · subst hx
    rw [if_pos rfl]
    cases assocGet d x <;> rfl
  · rw [if_neg hx]

theorem bumpFold_links : ∀ (l : List Hash) (d : List (Hash × CachedNode)) (x : Hash),
    optLinks (assocGet (l.foldl bumpParent d) x) = optLinks (assocGet d x) := by
  intro l
  induction l with
  | nil => intro d x; rfl
  | cons c rest ih =>
    intro d x
    rw [List.foldl_cons, ih, bumpParent_links]

theorem assocGet_filterOut_self (d : List (Hash × CachedNode)) (h : Hash) :
    assocGet (d.filter fun e => ¬ e.1 = h) h = none := by
  unfold assocGet
  have h1 : (d.filter fun e => ¬ e.1 = h).find? (fun e => e.1 = h) = none := by
    rw [List.find?_eq_none]
    intro e he
    have := List.mem_filter.mp he
    simpa using this.2
  rw [h1]
  rfl

theorem assocGet_filterOut_other (d : List (Hash × CachedNode)) (h x : Hash)
    (hx : ¬ x = h) : assocGet (d.filter fun e => ¬ e.1 = h) x = assocGet d x := by
  unfold assocGet
  rw [find?_filter_ne d h x hx]

theorem FList_nil_inv {d : List (Hash × CachedNode)} {prev start : Hash}
    (h : FList d prev start []) : start = zeroHash := by
  cases h
  rfl

theorem FList_start {d : List (Hash × CachedNode)} {prev start x : Hash} {rest : List Hash}
    (h : FList d prev start (x :: rest)) : start = x := by
  cases h
  rfl

theorem FList_nz {d : List (Hash × CachedNode)} {prev start : Hash} {chain : List Hash}
    (h : FList d prev start chain) : ∀ x ∈ chain, ¬ x = zeroHash := by
  induction h with
  | nil => intro x hx; cases hx
  | cons prev h e rest hnz he hp htl ih =>
    intro x hx
    rcases List.mem_cons.mp hx with rfl | hx2
    · exact hnz
    · exact ih x hx2

theorem FList_congr {d d2 : List (Hash × CachedNode)} {prev start : Hash}
    {chain : List Hash} (hF : FList d prev start chain)
    (hagree : ∀ x ∈ chain, optLinks (assocGet d2 x) = optLinks (assocGet d x)) :
    FList d2 prev start chain := by
  induction hF with
  | nil p => exact .nil p
  | cons prev h e rest hnz he hp htl ih =>
    have hh := hagree h (List.mem_cons_self _ _)
    rw [he] at hh
    cases hg2 : assocGet d2 h with
    | none => rw [hg2] at hh; cases hh
    | some e2 =>
      rw [hg2] at hh
      injection hh with hh2
      injection hh2 with hhp hhn
      refine .cons prev h e2 rest hnz hg2 (by rw [hhp]; exact hp) ?_
      rw [hhn]
      exact ih (fun x hx => hagree x (List.mem_cons_of_mem _ hx))

theorem optLinks_map_setNext (o : Option CachedNode) (h : Hash) :
    optLinks (o.map (fun e => { e with flushNext := h })) =
      (optLinks o).map (fun pr => (pr.1, h)) := by
  cases o <;> rfl

theorem FList_snoc : ∀ (chain : List Hash) (d d2 : List (Hash × CachedNode))
    (prev start h last : Hash) (enew : CachedNode),
    FList d prev start chain →
    chain.getLast? = some last →
    ¬ h = zeroHash →
    assocGet d2 h = some enew → enew.flushPrev = last → enew.flushNext = zeroHash →
    optLinks (assocGet d2 last) = (optLinks (assocGet d last)).map (fun pr => (pr.1, h)) →
    (∀ x ∈ chain, ¬ x = last → optLinks (assocGet d2 x) = optLinks (assocGet d x)) →
    last ∉ chain.dropLast →
    FList d2 prev start (chain ++ [h]) := by
  intro chain
  induction chain with
  | nil => intro d d2 prev start h last enew _ hlast; cases hlast
  | cons x rest ih =>
    intro d d2 prev start h last enew hF hlast hnz hgh hprev hnext hlastlinks hagree hnotdl
    cases hF with
    | cons _ _ e _ hxnz hxe hxp htl =>
      cases rest with
      | nil =>
        -- x is the last element: its links gain h as successor
        have hxlast : x = last := by
          rw [List.getLast?_singleton] at hlast
          exact Option.some.inj hlast
        subst hxlast
        rw [hxe] at hlastlinks
        cases hg2 : assocGet d2 x with
        | none => rw [hg2] at hlastlinks; cases hlastlinks
        | some e2 =>
          rw [hg2] at hlastlinks
          injection hlastlinks with hl2
          injection hl2 with hlp hln
          refine .cons prev x e2 [h] hxnz hg2 (by rw [hlp]; exact hxp) ?_
          rw [hln]
          refine .cons x h enew [] hnz hgh hprev ?_
          rw [hnext]
          exact .nil h
      | cons y rest2 =>
        have hxne : ¬ x = last := by
          intro hxl
          apply hnotdl
          rw [← hxl]
          show x ∈ (x :: y :: rest2).dropLast
          rw [List.dropLast_cons₂]
          exact List.mem_cons_self _ _
        have hx2 := hagree x (List.mem_cons_self _ _) hxne
        rw [hxe] at hx2
        cases hg2 : assocGet d2 x with
        | none => rw [hg2] at hx2; cases hx2
        | some e2 =>
          rw [hg2] at hx2
          injection hx2 with hl2
          injection hl2 with hlp hln
          refine .cons prev x e2 ((y :: rest2) ++ [h]) hxnz hg2 (by rw [hlp]; exact hxp) ?_
          rw [hln]
          refine ih d d2 x e.flushNext h last enew htl ?_ hnz hgh hprev hnext hlastlinks
            (fun z hz hzl => hagree z (List.mem_cons_of_mem _ hz) hzl) ?_
          · rw [← hlast]
            rfl
          · intro hc
            apply hnotdl
            rw [List.dropLast_cons₂]
            exact List.mem_cons_of_mem _ hc

theorem getLast?_ne_nil_mem : ∀ (l : List Hash) (a : Hash), l.getLast? = some a → a ∈ l := by
  intro l
  induction l with
  | nil => intro a h; cases h
  | cons x rest ih =>
    intro a h
    cases rest with
    | nil =>
      rw [List.getLast?_singleton] at h
      rw [Option.some.inj h]
      exact List.mem_cons_self _ _
    | cons y rest2 =>
      have h2 : (y :: rest2).getLast? = some a := by rw [← h]; rfl
      exact List.mem_cons_of_mem _ (ih a h2)

theorem nodup_last_not_dropLast (l : List Hash) (a : Hash) (hnd : l.Nodup)
    (hlast : l.getLast? = some a) : a ∉ l.dropLast := by
  have hsplit : l.dropLast ++ [a] = l := List.dropLast_append_getLast? a hlast
  rw [← hsplit] at hnd
  rw [List.nodup_append] at hnd
  intro hmem
  exact hnd.2.2 hmem (List.mem_singleton.mpr rfl)

theorem isSome_map_cached (f : CachedNode → CachedNode) (o : Option CachedNode) :
    (o.map f).isSome = o.isSome := by
  cases o <;> rfl

theorem chainOk_insertD (db : TrieDBS) (h : Hash) (n : Node) (chain : List Hash)
    (hC : ChainOk db chain) : ∃ c2, ChainOk (db.insertD h n) c2 := by
  unfold TrieDBS.insertD
  by_cases hs : (assocGet db.dirties h).isSome
  · rw [if_pos hs]
    exact ⟨chain, hC⟩
  · rw [if_neg hs]
    have hhz : ¬ h = zeroHash := by
      intro hz
      subst hz
      exact hs hC.sentinel
    have hnotin : h ∉ chain := fun hin => hs ((hC.mem h hhz).mpr hin)
    have hd1links : ∀ x, optLinks (assocGet
        ((CachedNode.childHashes ⟨some n, 0, [], db.newest, zeroHash⟩).foldl
          bumpParent db.dirties) x) = optLinks (assocGet db.dirties x) :=
      fun x => bumpFold_links _ _ x
    by_cases ho : db.oldest = zeroHash
    · rw [if_pos ho]
      have hchain : chain = [] := by
        cases chain with
        | nil => rfl
        | cons c rest =>
          obtain ⟨p0, hF⟩ := hC.links
          have hst := FList_start hF
          have hnzc := FList_nz hF c (List.mem_cons_self _ _)
          rw [ho] at hst
          exact absurd hst.symm hnzc
      refine ⟨[h], ⟨db.newest, ?_⟩, ?_, ?_, ?_, ?_⟩
      · refine .cons db.newest h ⟨some n, 0, [], db.newest, zeroHash⟩ [] hhz ?_ rfl ?_
        · exact assocGet_set_self _ _ _
        · exact .nil h
      · intro x hxz
        dsimp only
        by_cases hx : x = h
        · subst hx
          rw [assocGet_set_self]
          simp
        · rw [assocGet_set_other _ _ _ _ hx]
          have hiso : (assocGet ((CachedNode.childHashes
              ⟨some n, 0, [], db.newest, zeroHash⟩).foldl bumpParent db.dirties) x).isSome =
              (assocGet db.dirties x).isSome := by
            rw [← optLinks_isSome, hd1links x, optLinks_isSome]
          rw [hiso]
          constructor
          · intro hsx
            exact absurd ((hC.mem x hxz).mp hsx) (by rw [hchain]; simp)
          · intro hx2
            rcases List.mem_singleton.mp hx2 with rfl
            exact absurd rfl hx
      · exact List.nodup_singleton h
      · dsimp only
        rw [assocGet_set_other _ _ _ _ (fun hc => hhz hc.symm)]
        rw [← optLinks_isSome, hd1links zeroHash, optLinks_isSome]
        exact hC.sentinel
      · intro _
        rfl
    · rw [if_neg ho]
      have hchne : chain ≠ [] := by
        intro hnil
        obtain ⟨p0, hF⟩ := hC.links
        rw [hnil] at hF
        exact ho (FList_nil_inv hF)
      have hlast : chain.getLast? = some db.newest := hC.newest hchne
      have hnewin : db.newest ∈ chain := getLast?_ne_nil_mem chain db.newest hlast
      have hnew_nz : ¬ db.newest = zeroHash := FList_nz (hC.links.choose_spec) db.newest hnewin
      have hne_hnew : ¬ h = db.newest := fun he => hnotin (he ▸ hnewin)
      obtain ⟨p0, hF⟩ := hC.links
      -- the final dirty map of this branch
      have hget3 : ∀ x, assocGet (updEntry (assocSet
          ((CachedNode.childHashes ⟨some n, 0, [], db.newest, zeroHash⟩).foldl
            bumpParent db.dirties) h ⟨some n, 0, [], db.newest, zeroHash⟩)
          db.newest (fun e => { e with flushNext := h })) x =
          if x = db.newest then
            ((assocGet (assocSet ((CachedNode.childHashes
              ⟨some n, 0, [], db.newest, zeroHash⟩).foldl bumpParent db.dirties) h
              ⟨some n, 0, [], db.newest, zeroHash⟩) db.newest).map
                (fun e => { e with flushNext := h }))
          else assocGet (assocSet ((CachedNode.childHashes
            ⟨some n, 0, [], db.newest, zeroHash⟩).foldl bumpParent db.dirties) h
            ⟨some n, 0, [], db.newest, zeroHash⟩) x :=
        fun x => updEntry_get _ _ _ x
      refine ⟨chain ++ [h], ⟨p0, ?_⟩, ?_, ?_, ?_, ?_⟩
      · refine FList_snoc chain db.dirties _ p0 db.oldest h db.newest
          ⟨some n, 0, [], db.newest, zeroHash⟩ hF hlast hhz ?_ rfl rfl ?_ ?_ ?_
        · rw [hget3 h, if_neg hne_hnew, assocGet_set_self]
        · rw [hget3 db.newest, if_pos rfl,
            assocGet_set_other _ _ _ _ (fun hc => hne_hnew hc.symm),
            optLinks_map_setNext, hd1links db.newest]
        · intro x hx hxne
          have hxh : ¬ x = h := fun hc => hnotin (hc ▸ hx)
          rw [hget3 x, if_neg hxne, assocGet_set_other _ _ _ _ hxh, hd1links x]
        · exact nodup_last_not_dropLast chain db.newest hC.nodup hlast
      · intro x hxz
        dsimp only
        by_cases hxh : x = h
        · subst hxh
          rw [hget3 x, if_neg hne_hnew, assocGet_set_self]
          simp
        · rw [hget3 x]
          have hcore : (assocGet (assocSet ((CachedNode.childHashes
              ⟨some n, 0, [], db.newest, zeroHash⟩).foldl bumpParent db.dirties) h
              ⟨some n, 0, [], db.newest, zeroHash⟩) x).isSome =
              (assocGet db.dirties x).isSome := by
            rw [assocGet_set_other _ _ _ _ hxh, ← optLinks_isSome, hd1links x,
              optLinks_isSome]
          constructor
          · intro hsx
            refine List.mem_append_left _ ((hC.mem x hxz).mp ?_)
            by_cases hxn : x = db.newest
            · subst hxn
              exact (hC.mem db.newest hxz).mpr hnewin
            · rw [if_neg hxn, hcore] at hsx
              exact hsx
          · intro hmem
            rcases List.mem_append.mp hmem with hmem1 | hmem2
            · by_cases hxn : x = db.newest
              · subst hxn
                rw [if_pos rfl, isSome_map_cached]
                rw [assocGet_set_other _ _ _ _ hxh, ← optLinks_isSome,
                  hd1links db.newest, optLinks_isSome]
                exact (hC.mem db.newest hxz).mpr hnewin
              · rw [if_neg hxn, hcore]
                exact (hC.mem x hxz).mpr hmem1
            · exact absurd (List.mem_singleton.mp hmem2) hxh
      · rw [List.nodup_append]
        exact ⟨hC.nodup, List.nodup_singleton h,
          fun a ha hb => hnotin ((List.mem_singleton.mp hb) ▸ ha)⟩
      · dsimp only
        rw [hget3 zeroHash, if_neg (fun hc => hnew_nz hc.symm),
          assocGet_set_other _ _ _ _ (fun hc => hhz hc.symm),
          ← optLinks_isSome, hd1links zeroHash, optLinks_isSome]
        exact hC.sentinel
      · intro _
        dsimp only
        rw [List.getLast?_concat]

theorem optLinks_map_setPrev (o : Option CachedNode) (p : Hash) :
    optLinks (o.map (fun e => { e with flushPrev := p })) =
      (optLinks o).map (fun pr => (p, pr.2)) := by
  cases o <;> rfl

theorem FList_behead (d d2 : List (Hash × CachedNode)) (h nxt : Hash) (B : List Hash)
    (hF : FList d h nxt B)
    (hnd : B.Nodup)
    (hagree : ∀ x ∈ B, ¬ x = nxt → optLinks (assocGet d2 x) = optLinks (assocGet d x))
    (hheads : B ≠ [] → optLinks (assocGet d2 nxt) =
      (optLinks (assocGet d nxt)).map (fun pr => (zeroHash, pr.2))) :
    FList d2 zeroHash nxt B := by
  cases hF with
  | nil => exact .nil zeroHash
  | cons p b e B2 hbnz hbe hbp htl =>
    have hh := hheads (by simp)
    rw [hbe] at hh
    cases hg2 : assocGet d2 nxt with
    | none => rw [hg2] at hh; cases hh
    | some e2 =>
      rw [hg2] at hh
      injection hh with hh2
      injection hh2 with hhp hhn
      refine .cons zeroHash nxt e2 B2 hbnz hg2 hhp ?_
      rw [hhn]
      refine FList_congr htl ?_
      intro x hx
      have hxb : ¬ x = nxt := by
        intro hc
        subst hc
        exact (List.nodup_cons.mp hnd).1 hx
      exact hagree x (List.mem_cons_of_mem _ hx) hxb

theorem FList_last_nextZero : ∀ (A : List Hash) (d : List (Hash × CachedNode))
    (p0 start x : Hash) (e : CachedNode),
    FList d p0 start (A ++ [x]) → assocGet d x = some e → e.flushNext = zeroHash := by
  intro A
  induction A with
  | nil =>
    intro d p0 start x e hF hge
    cases hF with
    | cons _ _ e2 _ _ he2 _ htl =>
      rw [hge] at he2
      injection he2 with he3
      subst he3
      exact FList_nil_inv htl
  | cons a A2 ih =>
    intro d p0 start x e hF hge
    cases hF with
    | cons _ _ ea _ _ _ _ htl =>
      exact ih d a ea.flushNext x e htl hge

theorem FList_prev_of_last : ∀ (A : List Hash) (d : List (Hash × CachedNode))
    (p0 start x : Hash) (e : CachedNode),
    FList d p0 start (A ++ [x]) → assocGet d x = some e →
    (A = [] → e.flushPrev = p0) ∧ (A ≠ [] → A.getLast? = some e.flushPrev) := by
  intro A
  induction A with
  | nil =>
    intro d p0 start x e hF hge
    refine ⟨?_, fun hne => absurd rfl hne⟩
    intro _
    cases hF with
    | cons _ _ e2 _ _ he2 hp2 _ =>
      rw [hge] at he2
      injection he2 with he3
      subst he3
      exact hp2
  | cons a A2 ih =>
    intro d p0 start x e hF hge
    refine ⟨fun hc => List.noConfusion hc, fun _ => ?_⟩
    cases hF with
    | cons _ _ ea _ _ _ _ htl =>
      have hih := ih d a ea.flushNext x e htl hge
      cases A2 with
      | nil =>
        rw [hih.1 rfl]
        simp
      | cons b B2 =>
        have h2 := hih.2 (by simp)
        rw [List.getLast?_cons_cons]
        exact h2

theorem FList_prev_mid : ∀ (A : List Hash) (d : List (Hash × CachedNode))
    (p0 start x : Hash) (node : CachedNode) (B : List Hash),
    FList d p0 start (A ++ x :: B) → assocGet d x = some node →
    (A = [] → node.flushPrev = p0) ∧ (A ≠ [] → A.getLast? = some node.flushPrev) := by
  intro A
  induction A with
  | nil =>
    intro d p0 start x node B hF hgx
    refine ⟨fun _ => ?_, fun hne => absurd rfl hne⟩
    cases hF with
    | cons _ _ e2 _ _ he2 hp2 _ =>
      rw [hgx] at he2
      injection he2 with he3
      subst he3
      exact hp2
  | cons a A2 ih =>
    intro d p0 start x node B hF hgx
    refine ⟨fun hc => List.noConfusion hc, fun _ => ?_⟩
    cases hF with
    | cons _ _ ea _ _ _ _ htl =>
      have hih := ih d a ea.flushNext x node B htl hgx
      cases A2 with
      | nil =>
        rw [hih.1 rfl]
        simp
      | cons b B2 =>
        rw [List.getLast?_cons_cons]
        exact hih.2 (by simp)

theorem FList_next_mid : ∀ (A : List Hash) (d : List (Hash × CachedNode))
    (p0 start x : Hash) (node : CachedNode) (B : List Hash),
    FList d p0 start (A ++ x :: B) → assocGet d x = some node →
    node.flushNext = B.headD zeroHash := by
  intro A
  induction A with
  | nil =>
    intro d p0 start x node B hF hgx
    cases hF with
    | cons _ _ e2 _ _ he2 _ htl =>
      rw [hgx] at he2
      injection he2 with he3
      subst he3
      cases B with
      | nil => exact FList_nil_inv htl
      | cons b B2 => exact FList_start htl
  | cons a A2 ih =>
    intro d p0 start x node B hF hgx
    cases hF with
    | cons _ _ ea _ _ _ _ htl =>
      exact ih d a ea.flushNext x node B htl hgx

theorem FList_excise : ∀ (A : List Hash) (d d2 : List (Hash × CachedNode))
    (p0 start x : Hash) (node : CachedNode) (B : List Hash),
    FList d p0 start (A ++ x :: B) →
    assocGet d x = some node →
    (A ++ x :: B).Nodup →
    A ≠ [] →
    (∀ y ∈ A ++ B, ¬ y = node.flushPrev → ¬ y = node.flushNext →
      optLinks (assocGet d2 y) = optLinks (assocGet d y)) →
    optLinks (assocGet d2 node.flushPrev) =
      (optLinks (assocGet d node.flushPrev)).map (fun pr => (pr.1, node.flushNext)) →
    (B ≠ [] → optLinks (assocGet d2 node.flushNext) =
      (optLinks (assocGet d node.flushNext)).map (fun pr => (node.flushPrev, pr.2))) →
    FList d2 p0 start (A ++ B) := by
  intro A
  induction A with
  | nil => intro d d2 p0 start x node B _ _ _ hAne; exact absurd rfl hAne
  | cons a A2 ih =>
    intro d d2 p0 start x node B hF hgx hnd hAne hagree hpred hsucc
    cases hF with
    | cons _ _ ea _ hanz hae hap htl =>
      cases A2 with
      | nil =>
        -- a is the predecessor of x: splice a directly to x's successor
        generalize hst : ea.flushNext = st at htl
        cases htl with
        | cons _ _ ex _ hxnz hxe hxp htl2 =>
          rw [hgx] at hxe
          injection hxe with hxe2
          subst hxe2
          have hpa : node.flushPrev = a := hxp
          rw [hpa, hae] at hpred
          cases hg2 : assocGet d2 a with
          | none => rw [hg2] at hpred; cases hpred
          | some ea2 =>
            rw [hg2] at hpred
            injection hpred with hp2
            injection hp2 with hpp hpn
            refine .cons p0 a ea2 B hanz hg2 (by rw [hpp]; exact hap) ?_
            rw [hpn]
            generalize hst2 : node.flushNext = st2 at htl2
            cases htl2 with
            | nil =>
              exact .nil a
            | cons _ _ eb B2 hbnz hbe hbp htl3 =>
              have hsu := hsucc (by simp)
              rw [hst2, hbe] at hsu
              cases hg3 : assocGet d2 st2 with
              | none => rw [hg3] at hsu; cases hsu
              | some eb2 =>
                rw [hg3] at hsu
                injection hsu with hs2
                injection hs2 with hsp hsn
                refine .cons a st2 eb2 B2 hbnz hg3 (by rw [hsp]; exact hpa) ?_
                rw [hsn]
                refine FList_congr htl3 ?_
                intro y hy
                have hynd : (a :: x :: st2 :: B2).Nodup := by
                  simpa using hnd
                have hya : ¬ y = a := by
                  intro hc
                  subst hc
                  exact (List.nodup_cons.mp hynd).1
                    (List.mem_cons_of_mem _ (List.mem_cons_of_mem _ hy))
                have hyn : ¬ y = st2 := by
                  intro hc
                  subst hc
                  have h2 := (List.nodup_cons.mp ((List.nodup_cons.mp hynd).2)).2
                  exact (List.nodup_cons.mp h2).1 hy
                refine hagree y ?_ (by rw [hpa]; exact hya)
                  (by rw [hst2]; exact hyn)
                exact List.mem_append_right _ (List.mem_cons_of_mem _ hy)
      | cons a2 A3 =>
        -- a keeps its links; the splice happens deeper in the chain
        have hprevmem : node.flushPrev ∈ a2 :: A3 := by
          have h1 := FList_prev_mid (a2 :: A3) d a ea.flushNext x node B htl hgx
          exact getLast?_ne_nil_mem _ _ (h1.2 (by simp))
        have hnd2 : ((a2 :: A3) ++ x :: B).Nodup := (List.nodup_cons.mp hnd).2
        have hamem : a ∉ (a2 :: A3) ++ x :: B := (List.nodup_cons.mp hnd).1
        have hapd : ¬ a = node.flushPrev := by
          intro hc
          exact hamem (List.mem_append_left _ (hc ▸ hprevmem))
        have hand : ¬ a = node.flushNext := by
          have hnx := FList_next_mid (a2 :: A3) d a ea.flushNext x node B htl hgx
          intro hc
          cases B with
          | nil => exact hanz (by rw [hc, hnx]; rfl)
          | cons b B2 =>
            apply hamem
            refine List.mem_append_right _ ?_
            rw [hc, hnx]
            exact List.mem_cons_of_mem _ (List.mem_cons_self _ _)
        have haa := hagree a (List.mem_cons_self _ _) hapd hand
        rw [hae] at haa
        cases hg2 : assocGet d2 a with
        | none => rw [hg2] at haa; cases haa
        | some ea2 =>
          rw [hg2] at haa
          injection haa with ha2
          injection ha2 with hap2 han2
          refine .cons p0 a ea2 ((a2 :: A3) ++ B) hanz hg2 (by rw [hap2]; exact hap) ?_
          rw [han2]
          refine ih d d2 a ea.flushNext x node B htl hgx hnd2 (by simp) ?_ hpred hsucc
          intro y hy hyp hyn
          exact hagree y (by
            rcases List.mem_append.mp hy with h1 | h1
            · exact List.mem_append_left _ (List.mem_cons_of_mem _ h1)
            · exact List.mem_append_right _ h1) hyp hyn

theorem isSome_updEntry (d : List (Hash × CachedNode)) (h : Hash)
    (f : CachedNode → CachedNode) (x : Hash) :
    (assocGet (updEntry d h f) x).isSome = (assocGet d x).isSome := by
  rw [updEntry_get]
  by_cases hx : x = h
  · subst hx
    rw [if_pos rfl, isSome_map_cached]
  · rw [if_neg hx]

theorem isSome_filterOut (d : List (Hash × CachedNode)) (h x : Hash) (hx : ¬ x = h) :
    (assocGet (d.filter fun e => ¬ e.1 = h) x).isSome = (assocGet d x).isSome := by
  rw [assocGet_filterOut_other _ _ _ hx]

theorem chainOk_cleanerPut (db : TrieDBS) (h : Hash) (chain : List Hash)
    (hnz : ¬ h = zeroHash) (hC : ChainOk db chain) :
    ∃ c2, ChainOk (cleanerPut db h) c2 := by
  unfold cleanerPut
  cases hgn : assocGet db.dirties h with
  | none => exact ⟨chain, hC⟩
  | some node =>
    dsimp only
    have hin : h ∈ chain := (hC.mem h hnz).mp (by rw [hgn]; rfl)
    obtain ⟨p0, hF⟩ := hC.links
    by_cases ho : h = db.oldest
    · -- h is at the head of the flush-list
      rw [if_pos ho]
      dsimp only
      obtain ⟨rest, hch⟩ : ∃ rest, chain = h :: rest := by
        cases hcc : chain with
        | nil => rw [hcc] at hin; cases hin
        | cons c rest =>
          rw [hcc] at hF
          have hst := FList_start hF
          exact ⟨rest, by rw [ho, hst]⟩
      subst hch
      have hnotin : h ∉ rest := (List.nodup_cons.mp hC.nodup).1
      rw [← ho] at hF
      cases hF with
      | cons _ _ e _ _ he _ htl =>
        rw [hgn] at he
        injection he with he2
        subst he2
        refine ⟨rest, ⟨zeroHash, ?_⟩, ?_, ?_, ?_, ?_⟩
        · dsimp only
          refine FList_behead db.dirties _ h node.flushNext rest htl
            (List.nodup_cons.mp hC.nodup).2 ?_ ?_
          · intro x hx hxn
            have hxh : ¬ x = h := fun hc => hnotin (hc ▸ hx)
            rw [assocGet_filterOut_other _ _ _ hxh, updEntry_get, if_neg hxn]
          · intro hrne
            cases rest with
            | nil => exact absurd rfl hrne
            | cons r rest2 =>
              have hr : node.flushNext = r := FList_start htl
              have hrh : ¬ node.flushNext = h := by
                rw [hr]
                intro hc
                exact hnotin (hc ▸ List.mem_cons_self _ _)
              rw [assocGet_filterOut_other _ _ _ hrh, updEntry_get, if_pos rfl,
                optLinks_map_setPrev]
        · intro x hxz
          dsimp only
          by_cases hxh : x = h
          · subst hxh
            rw [assocGet_filterOut_self]
            simp [hnotin]
          · rw [isSome_filterOut _ h x hxh, isSome_updEntry]
            rw [hC.mem x hxz]
            simp [hxh]
        · exact (List.nodup_cons.mp hC.nodup).2
        · dsimp only
          rw [isSome_filterOut _ h zeroHash (fun hc => hnz hc.symm), isSome_updEntry]
          exact hC.sentinel
        · intro hrne
          dsimp only
          rw [← hC.newest (by simp)]
          cases rest with
          | nil => exact absurd rfl hrne
          | cons r rest2 => rfl
    · rw [if_neg ho]
      by_cases hnw : h = db.newest
      · -- h is the tail of the flush-list
        rw [if_pos hnw]
        dsimp only
        have hchne : chain ≠ [] := fun hc => by rw [hc] at hin; cases hin
        have hlast : chain.getLast? = some h := by
          rw [hC.newest hchne, hnw]
        have hsplit : chain.dropLast ++ [h] = chain :=
          List.dropLast_append_getLast? h hlast
        have hAne : chain.dropLast ≠ [] := by
          intro hc
          rw [hc, List.nil_append] at hsplit
          rw [← hsplit] at hF
          exact ho (FList_start hF).symm
        have hndA : (chain.dropLast ++ h :: []).Nodup := by
          rw [hsplit]
          exact hC.nodup
        have hnotinA : h ∉ chain.dropLast :=
          nodup_last_not_dropLast chain h hC.nodup hlast
        have hF2 : FList db.dirties p0 db.oldest (chain.dropLast ++ h :: []) := by
          rw [hsplit]
          exact hF
        have hnext0 : node.flushNext = zeroHash :=
          FList_last_nextZero chain.dropLast db.dirties p0 db.oldest h node
            (by simpa using hF2) hgn
        have hprevlast : chain.dropLast.getLast? = some node.flushPrev :=
          (FList_prev_of_last chain.dropLast db.dirties p0 db.oldest h node
            (by simpa using hF2) hgn).2 hAne
        have hprevmem : node.flushPrev ∈ chain.dropLast :=
          getLast?_ne_nil_mem _ _ hprevlast
        have hprevh : ¬ node.flushPrev = h := fun hc => hnotinA (hc ▸ hprevmem)
        refine ⟨chain.dropLast, ⟨p0, ?_⟩, ?_, ?_, ?_, ?_⟩
        · dsimp only
          rw [← List.append_nil chain.dropLast]
          refine FList_excise chain.dropLast db.dirties _ p0 db.oldest h node []
            hF2 hgn hndA hAne ?_ ?_ (fun hc => absurd rfl hc)
          · intro y hy hyp hyn
            have hyh : ¬ y = h := by
              intro hc
              subst hc
              exact hnotinA (by simpa using hy)
            rw [assocGet_filterOut_other _ _ _ hyh, updEntry_get, if_neg hyp]
          · rw [assocGet_filterOut_other _ _ _ hprevh, updEntry_get, if_pos rfl,
              optLinks_map_setNext, hnext0]
        · intro x hxz
          dsimp only
          by_cases hxh : x = h
          · subst hxh
            rw [assocGet_filterOut_self]
            simp [hnotinA]
          · rw [isSome_filterOut _ h x hxh, isSome_updEntry]
            rw [hC.mem x hxz, ← hsplit]
            simp [hxh]
        · exact (List.nodup_append.mp (by rw [hsplit]; exact hC.nodup)).1
        · dsimp only
          rw [isSome_filterOut _ h zeroHash (fun hc => hnz hc.symm), isSome_updEntry]
          exact hC.sentinel
        · intro hAne2
          dsimp only
          exact hprevlast
      · -- h sits in the middle of the flush-list
        rw [if_neg hnw]
        dsimp only
        obtain ⟨A, B, hch⟩ := List.append_of_mem hin
        have hchne : chain ≠ [] := fun hc => by rw [hc] at hin; cases hin
        have hAne : A ≠ [] := by
          intro hc
          rw [hc, List.nil_append] at hch
          rw [hch] at hF
          exact ho (FList_start hF).symm
        have hBne : B ≠ [] := by
          intro hc
          rw [hc] at hch
          have := hC.newest hchne
          rw [hch, List.getLast?_concat] at this
          exact hnw (Option.some.inj this)
        have hnd2 : (A ++ h :: B).Nodup := by rw [← hch]; exact hC.nodup
        have hF2 : FList db.dirties p0 db.oldest (A ++ h :: B) := by
          rw [← hch]; exact hF
        have hnotinA : h ∉ A := by
          intro hmem
          rcases (List.nodup_append.mp hnd2) with ⟨_, _, hdisj⟩
          exact hdisj hmem (List.mem_cons_self _ _)
        have hnotinB : h ∉ B := by
          have := List.nodup_cons.mp (List.nodup_append.mp hnd2).2.1
          exact this.1
        have hprevlast : A.getLast? = some node.flushPrev :=
          (FList_prev_mid A db.dirties p0 db.oldest h node B hF2 hgn).2 hAne
        have hprevmem : node.flushPrev ∈ A := getLast?_ne_nil_mem _ _ hprevlast
        have hnexthead : node.flushNext = B.headD zeroHash :=
          FList_next_mid A db.dirties p0 db.oldest h node B hF2 hgn
        have hnextmem : node.flushNext ∈ B := by
          cases B with
          | nil => exact absurd rfl hBne
          | cons b B2 =>
            rw [hnexthead]
            exact List.mem_cons_self _ _
        have hprevh : ¬ node.flushPrev = h := fun hc => hnotinA (hc ▸ hprevmem)
        have hnexth : ¬ node.flushNext = h := fun hc => hnotinB (hc ▸ hnextmem)
        have hprevnext : ¬ node.flushPrev = node.flushNext := by
          intro hc
          rcases (List.nodup_append.mp hnd2) with ⟨_, _, hdisj⟩
          exact hdisj hprevmem (List.mem_cons_of_mem _ (hc ▸ hnextmem))
        refine ⟨A ++ B, ⟨p0, ?_⟩, ?_, ?_, ?_, ?_⟩
        · dsimp only
          refine FList_excise A db.dirties _ p0 db.oldest h node B hF2 hgn hnd2
            hAne ?_ ?_ ?_
          · intro y hy hyp hyn
            have hyh : ¬ y = h := by
              intro hc
              subst hc
              rcases List.mem_append.mp hy with h1 | h1
              · exact hnotinA h1
              · exact hnotinB h1
            rw [assocGet_filterOut_other _ _ _ hyh, updEntry_get, if_neg hyn,
              updEntry_get, if_neg hyp]
          · rw [assocGet_filterOut_other _ _ _ hprevh, updEntry_get,
              if_neg hprevnext, updEntry_get, if_pos rfl, optLinks_map_setNext]
          · intro _
            rw [assocGet_filterOut_other _ _ _ hnexth, updEntry_get, if_pos rfl,
              updEntry_get, if_neg (fun hc => hprevnext hc.symm),
              optLinks_map_setPrev]
        · intro x hxz
          dsimp only
          by_cases hxh : x = h
          · subst hxh
            rw [assocGet_filterOut_self]
            simp only [Option.isSome_none, Bool.false_eq_true, false_iff]
            intro hmem
            rcases List.mem_append.mp hmem with h1 | h1
            · exact hnotinA h1
            · exact hnotinB h1
          · rw [isSome_filterOut _ h x hxh, isSome_updEntry, isSome_updEntry]
            rw [hC.mem x hxz, hch]
            constructor
            · intro hmem
              rcases List.mem_append.mp hmem with h1 | h1
              · exact List.mem_append_left _ h1
              · rcases List.mem_cons.mp h1 with rfl | h2
                · exact absurd rfl hxh
                · exact List.mem_append_right _ h2
            · intro hmem
              rcases List.mem_append.mp hmem with h1 | h1
              · exact List.mem_append_left _ h1
              · exact List.mem_append_right _ (List.mem_cons_of_mem _ h1)
        · refine List.Nodup.sublist ?_ hnd2
          exact List.Sublist.append_left (List.sublist_cons_self _ _) A
        · dsimp only
          rw [isSome_filterOut _ h zeroHash (fun hc => hnz hc.symm), isSome_updEntry,
            isSome_updEntry]
          exact hC.sentinel
        · intro _
          dsimp only
          rw [List.getLast?_append_of_ne_nil _ hBne, ← hC.newest hchne, hch,
            List.getLast?_append_of_ne_nil _ (by simp),
            show (h :: B) = [h] ++ B from rfl,
            List.getLast?_append_of_ne_nil _ hBne]

theorem chainOk_init (disk : List (Hash × Bytes)) : ChainOk (NewTrieDBS disk) [] := by
  refine ⟨⟨zeroHash, .nil zeroHash⟩, ?_, List.nodup_nil, ?_, fun hc => absurd rfl hc⟩
  · intro x hxz
    simp only [List.not_mem_nil, iff_false]
    unfold NewTrieDBS assocGet
    dsimp only
    rw [List.find?_cons_of_neg _ (by simpa using fun hc => hxz hc.symm)]
    simp
  · unfold NewTrieDBS assocGet
    dsimp only
    rw [List.find?_cons_of_pos _ (by simp)]
    rfl

theorem chainOk_empty_oldest (db : TrieDBS) (chain : List Hash) (hC : ChainOk db chain)
    (hemp : ∀ x, ¬ x = zeroHash → ¬ ((assocGet db.dirties x).isSome = true)) :
    db.oldest = zeroHash := by
  obtain ⟨p0, hF⟩ := hC.links
  cases hcc : chain with
  | nil =>
    rw [hcc] at hF
    exact FList_nil_inv hF
  | cons c rest =>
    exfalso
    have hcmem : c ∈ chain := by rw [hcc]; exact List.mem_cons_self _ _
    have hcnz : ¬ c = zeroHash := FList_nz hF c (by rw [← hcc] at *; exact hcmem)
    exact hemp c hcnz ((hC.mem c hcnz).mpr hcmem)

/-- C3 (amended): in every reachable `TrieDB` state the flush-list walked
from `oldest` along `flushNext` is a chain holding every dirty non-sentinel
hash exactly once, with correct backward links on non-head elements and
`newest` as its last element while it is nonempty; when the dirty cache has
no non-sentinel entry, `oldest` is the zero hash. (`newest` is NOT reset in
that situation, see the counterexample.) -/
theorem c3_flush_list_invariant (db : TrieDBS) (hreach : DbReachable db) :
    ∃ chain, ChainOk db chain ∧
      ((∀ x, ¬ x = zeroHash → ¬ ((assocGet db.dirties x).isSome = true)) →
        db.oldest = zeroHash) := by
  induction hreach with
  | init disk =>
    exact ⟨[], chainOk_init disk, fun hemp =>
      chainOk_empty_oldest _ [] (chainOk_init disk) hemp⟩
  | @step a b hr hs ih =>
    obtain ⟨chain, hC, _⟩ := ih
    cases hs with
    | insert h n =>
      obtain ⟨c2, hC2⟩ := chainOk_insertD a h n chain hC
      exact ⟨c2, hC2, fun hemp => chainOk_empty_oldest _ c2 hC2 hemp⟩
    | clean h hnz =>
      obtain ⟨c2, hC2⟩ := chainOk_cleanerPut a h chain hnz hC
      exact ⟨c2, hC2, fun hemp => chainOk_empty_oldest _ c2 hC2 hemp⟩

theorem c3_flush_list_invariant_witness :
    ∃ chain, ChainOk (NewTrieDBS []) chain ∧
      ((∀ x, ¬ x = zeroHash → ¬ ((assocGet (NewTrieDBS []).dirties x).isSome = true)) →
        (NewTrieDBS []).oldest = zeroHash) :=
  c3_flush_list_invariant (NewTrieDBS []) (DbReachable.init [])

/-- C3 counterexample: committing the lone inserted node empties the dirty
cache of non-sentinel entries and resets `oldest` to zero, but leaves
`newest` pointing at the removed hash: the original claim's "both endpoints
equal the zero hash" fails. -/
theorem c3_newest_stale_counterexample :
    (TrieDBCommit 2 ((NewTrieDBS []).insertD sampleHash (.value [1])) sampleHash).map
      (fun db2 => (db2.dirties.map Prod.fst, db2.oldest, db2.newest)) =
        some ([zeroHash], zeroHash, sampleHash) ∧
    ¬ sampleHash = zeroHash := by
  constructor
  · simp [TrieDBCommit, commitRec, commitList, NewTrieDBS, TrieDBS.insertD, sampleHash,
      zeroHash, assocGet, assocSet, CachedNode.childHashes, gatherChildren, bumpParent,
      updEntry, cleanerPut, BatchS.replayClean, BatchS.writeTo, BatchS.put, emptyBatch,
      CachedNode.rlp, encodeNode, rlpEncStr, natBe, idealBatchSize]
  · simp [sampleHash, zeroHash]

end MtTrie
